import Mathlib

/-!
Shallow embedding of `src/inner_product_proof.rs` (Bulletproofs inner-product
argument): the `Proof` structure, `Proof::create` and `Proof::verify`, together
with models of the external collaborators (Fiat-Shamir transcript, multiscalar
multiplication, inner product, batch inversion) at their interface boundary.

Scalars are modelled as an arbitrary field `F` (the Ristretto scalar field is
`ZMod ℓ` for a prime `ℓ`); group elements as an arbitrary `F`-module `Pt`
(the Ristretto group is cyclic of prime order, hence a `ZMod ℓ`-module).
Point compression is injective on the Ristretto group, so committing a
compressed point to the transcript is modelled as committing the point itself.
-/

namespace IPP

/-- Modelled from the spec: a Fiat-Shamir transcript event — either bytes
absorbed (here: a compressed point committed via `commit`) or a challenge
having been squeezed.  The transcript state is the ordered list of events. -/
inductive TEvent (Pt : Type) : Type
  | commitPoint : Pt → TEvent Pt
  | chal : TEvent Pt
deriving DecidableEq

section Defs

variable {F : Type} [Field F] {Pt : Type} [AddCommGroup Pt] [Module F Pt]

/-- Modelled from the spec: `ProofTranscript::commit` appends the committed
bytes to the running transcript state. -/
def commit (t : List (TEvent Pt)) (p : Pt) : List (TEvent Pt) :=
  t ++ [TEvent.commitPoint p]

/-- Modelled from the spec: `ProofTranscript::challenge_scalar` returns a
scalar that is a deterministic function (`oracle`) of everything absorbed so
far, and advances the transcript state. -/
def challenge_scalar (oracle : List (TEvent Pt) → F) (t : List (TEvent Pt)) :
    F × List (TEvent Pt) :=
  (oracle t, t ++ [TEvent.chal])

/-- Modelled from the spec: `range_proof::inner_product`, the inner product
`Σ aᵢ·bᵢ` of two scalar vectors. -/
def inner_product (a b : List F) : F :=
  (List.zipWith (fun x y => x * y) a b).sum

/-- Modelled from the spec: `ristretto::vartime::multiscalar_mult`, computing
`Σ scalarᵢ • pointᵢ`; the iterator zip truncates at the shorter sequence. -/
def multiscalar_mult (scalars : List F) (points : List Pt) : Pt :=
  (List.zipWith (fun s p => s • p) scalars points).sum

/-- Modelled from the spec: `scalar::batch_invert` replaces every element by
its inverse and also returns the product of all the inverses (`allinv`). -/
def batch_invert (xs : List F) : List F × F :=
  (xs.map (fun x => x⁻¹), (xs.map (fun x => x⁻¹)).prod)

/-- The proof object: one `L`,`R` pair of cross-term commitments per folding
round, in creation order, plus the two fully folded scalars. -/
structure Proof (F Pt : Type) where
  L_vec : List Pt
  R_vec : List Pt
  a : F
  b : F
deriving DecidableEq

/-- The rescale loop at the top of `Proof::create`:
`for (H_i, h_i) in H.iter_mut().zip(Hprime_factors) { *H_i = H_i * h_i }` —
mutates `H` in place while both sequences have elements, leaving any tail of
`H` beyond the factors unrescaled. -/
def rescaleH : List Pt → List F → List Pt
  | [], _ => []
  | H, [] => H
  | Hi :: H, f :: fs => f • Hi :: rescaleH H fs

/-- Line 85: `c_L = inner_product(a_L, b_R)` where `a_L`/`b_R` are the low
and high halves of the active slices at split point `n'`. -/
def round_c_L (a b : List F) (n' : Nat) : F :=
  inner_product (a.take n') (b.drop n')

/-- Line 86: `c_R = inner_product(a_R, b_L)`. -/
def round_c_R (a b : List F) (n' : Nat) : F :=
  inner_product (a.drop n') (b.take n')

/-- Lines 88–91: `L = msm(a_L ++ b_R ++ [c_L], G_R ++ H_L ++ [Q])` (the
iterator chains zipped pairwise). -/
def round_L (Q : Pt) (n' : Nat) (Gv Hv : List Pt) (a b : List F) : Pt :=
  multiscalar_mult (a.take n' ++ b.drop n' ++ [round_c_L a b n'])
    (Gv.drop n' ++ Hv.take n' ++ [Q])

/-- Lines 93–96: `R = msm(a_R ++ b_L ++ [c_R], G_L ++ H_R ++ [Q])`. -/
def round_R (Q : Pt) (n' : Nat) (Gv Hv : List Pt) (a b : List F) : Pt :=
  multiscalar_mult (a.drop n' ++ b.take n' ++ [round_c_R a b n'])
    (Gv.take n' ++ Hv.drop n' ++ [Q])

/-- Line 108: `a_L[i] = a_L[i] * x + x_inv * a_R[i]` for `i` in the
half-length; the surviving low half of the scalar vector `a`. -/
def fold_a (x : F) (n' : Nat) (a : List F) : List F :=
  List.zipWith (fun l r => l * x + x⁻¹ * r) (a.take n') (a.drop n')

/-- Line 109: `b_L[i] = b_L[i] * x_inv + x * b_R[i]`. -/
def fold_b (x : F) (n' : Nat) (b : List F) : List F :=
  List.zipWith (fun l r => l * x⁻¹ + x * r) (b.take n') (b.drop n')

/-- Line 110: `G_L[i] = msm([x_inv, x], [G_L[i], G_R[i]])
= x_inv • G_L[i] + x • G_R[i]`. -/
def fold_G (x : F) (n' : Nat) (Gv : List Pt) : List Pt :=
  List.zipWith (fun l r => x⁻¹ • l + x • r) (Gv.take n') (Gv.drop n')

/-- Line 111: `H_L[i] = msm([x, x_inv], [H_L[i], H_R[i]])
= x • H_L[i] + x_inv • H_R[i]`. -/
def fold_H (x : F) (n' : Nat) (Hv : List Pt) : List Pt :=
  List.zipWith (fun l r => x • l + x⁻¹ • r) (Hv.take n') (Hv.drop n')

/-- The main `while n != 1` loop of `Proof::create` (lines 78–118).  `fuel`
bounds the recursion depth (the Rust loop does not terminate for `n = 0`;
exhausted fuel, like a panic, is `none`).  Each round: split at `n' = n/2`,
compute the cross terms and the commitments `L`, `R`, commit `L` then `R` to
the transcript, draw one challenge `x`, and fold the four vectors to their
(low) halves; when the active length reaches 1 the remaining single elements
of `a` and `b` become the proof's scalars (`a[0]` on an empty slice would be
a panic: `none`). -/
def createLoop (oracle : List (TEvent Pt) → F) (Q : Pt) :
    Nat → Nat → List (TEvent Pt) → List Pt → List Pt → List F → List F →
      Option (Proof F Pt × List (TEvent Pt))
  | 0, n, t, _, _, a, b =>
    if n = 1 then
      a.head?.bind (fun a0 => b.head?.map (fun b0 => (⟨[], [], a0, b0⟩, t)))
    else none
  | fuel + 1, n, t, Gv, Hv, a, b =>
    if n = 1 then
      a.head?.bind (fun a0 => b.head?.map (fun b0 => (⟨[], [], a0, b0⟩, t)))
    else
      let L := round_L Q (n / 2) Gv Hv a b
      let R := round_R Q (n / 2) Gv Hv a b
      let xt := challenge_scalar oracle (commit (commit t L) R)
      (createLoop oracle Q fuel (n / 2) xt.2
          (fold_G xt.1 (n / 2) Gv) (fold_H xt.1 (n / 2) Hv)
          (fold_a xt.1 (n / 2) a) (fold_b xt.1 (n / 2) b)).map
        (fun pt => (⟨L :: pt.1.L_vec, R :: pt.1.R_vec, pt.1.a, pt.1.b⟩, pt.2))

/-- `Proof::create` (lines 39–126): asserts that all four input vectors have
the length of `G_vec` (a failed assertion, i.e. a panic, is `none`), rescales
`H_vec` by `Hprime_factors`, then runs the folding loop. -/
def create (oracle : List (TEvent Pt) → F) (t : List (TEvent Pt)) (Q : Pt)
    (Hprime_factors : List F) (G_vec H_vec : List Pt) (a_vec b_vec : List F) :
    Option (Proof F Pt × List (TEvent Pt)) :=
  let n := G_vec.length
  if H_vec.length = n ∧ a_vec.length = n ∧ b_vec.length = n then
    createLoop oracle Q n n t G_vec (rescaleH H_vec Hprime_factors) a_vec b_vec
  else
    none

/-- The challenge-replay loop of `Proof::verify` (lines 147–153): for each
`(L, R)` pair (the zip of `L_vec` and `R_vec`) commit `L` then `R` and draw
one challenge. -/
def verifyChallengesLoop (oracle : List (TEvent Pt) → F) :
    List (Pt × Pt) → List (TEvent Pt) → List F × List (TEvent Pt)
  | [], t => ([], t)
  | LR :: rest, t =>
    let t1 := commit (commit t LR.1) LR.2
    let xt := challenge_scalar oracle t1
    let rec_result := verifyChallengesLoop oracle rest xt.2
    (xt.1 :: rec_result.1, rec_result.2)

/-- `1 & (i >> j)`, the `j`-th bit of `i` (line 164). -/
def bit (i j : Nat) : Nat := 1 &&& (i >>> j)

/-- One iteration of the inner loop of lines 168–175: if the `j`-th bit of
`i` is set, multiply the accumulator by `challenges_sq[(lg_n - 1) - j]`; an
out-of-bounds index (a panic) is `none`. -/
def sStep (challenges_sq : List F) (lg_n i : Nat) (acc : Option F) (j : Nat) :
    Option F :=
  acc.bind (fun s =>
    if bit i j = 1 then
      (challenges_sq.get? (lg_n - 1 - j)).map (fun c => s * c)
    else some s)

/-- The inner loop computing one `s_i` (lines 168–175): start from `allinv`
and run `sStep` for each `j` in `0..lg_n`. -/
def compute_s_i (challenges_sq : List F) (lg_n : Nat) (allinv : F) (i : Nat) :
    Option F :=
  (List.range lg_n).foldl (sStep challenges_sq lg_n i) (some allinv)

/-- Sequentially collect `Option` results, `none` as soon as one fails. -/
def collectSome {α : Type} : List (Option α) → Option (List α)
  | [] => some []
  | o :: os => o.bind (fun x => (collectSome os).map (fun xs => x :: xs))

/-- The `s` vector of `Proof::verify` (lines 166–178): `s_i` for each
`i` in `0..n`. -/
def compute_s (challenges_sq : List F) (lg_n : Nat) (allinv : F) (n : Nat) :
    Option (List F) :=
  collectSome ((List.range n).map (compute_s_i challenges_sq lg_n allinv))

variable [DecidableEq Pt]

/-- `Proof::verify` (lines 128–212): replay the transcript over the zipped
`L_vec`/`R_vec` pairs to re-derive the challenges, batch-invert them, square
them, expand the `s` coefficients, and compare the single multiscalar
multiplication `expect_P` against `P`.  A panic (out-of-bounds index in the
`s` expansion) is `none`; otherwise `some (Ok/Err, final transcript)`. -/
def verify (oracle : List (TEvent Pt) → F) (proof : Proof F Pt)
    (t : List (TEvent Pt)) (Hprime_factors : List F) (P Q : Pt)
    (G_vec H_vec : List Pt) :
    Option (Except Unit Unit × List (TEvent Pt)) :=
  let lg_n := proof.L_vec.length
  let n := 2 ^ lg_n
  let ct := verifyChallengesLoop oracle (proof.L_vec.zip proof.R_vec) t
  let challenges := ct.1
  let ia := batch_invert challenges
  let inv_challenges := ia.1
  let allinv := ia.2
  let challenges_sq := challenges.map (fun x => x * x)
  match compute_s challenges_sq lg_n allinv n with
  | none => none
  | some s =>
    let a_times_s := s.map (fun s_i => proof.a * s_i)
    let inv_s := s.reverse
    let h_times_b_div_s :=
      List.zipWith (fun h_i s_i_inv => (proof.b * s_i_inv) * h_i)
        Hprime_factors inv_s
    let neg_x_sq := challenges_sq.map (fun x => -x)
    let neg_x_inv_sq := inv_challenges.map (fun x_inv => -(x_inv * x_inv))
    let expect_P := multiscalar_mult
      ([proof.a * proof.b] ++ a_times_s ++ h_times_b_div_s ++
        neg_x_sq ++ neg_x_inv_sq)
      ([Q] ++ G_vec ++ H_vec ++ proof.L_vec ++ proof.R_vec)
    if expect_P = P then some (Except.ok (), ct.2) else some (Except.error (), ct.2)

/-- The recursive form of the verifier's coefficient expansion: for the
challenge list `xs` in creation order, the first (outermost) challenge splits
the index range at its midpoint, the low half receiving `x⁻¹` and the high
half `x`.  This is the brute-force re-derivation of the folding coefficients
against which the code's bit-indexed `s` is checked. -/
def sRec : List F → List F
  | [] => [1]
  | x :: rest =>
    (sRec rest).map (fun c => x⁻¹ * c) ++ (sRec rest).map (fun c => x * c)

/-- `Σⱼ xⱼ² • Lⱼ + Σⱼ xⱼ⁻² • Rⱼ`, the cross-term correction accumulated over
the folding rounds (challenges in creation order). -/
def sumLR (xs : List F) (Ls Rs : List Pt) : Pt :=
  (List.zipWith (fun x l => (x * x) • l) xs Ls).sum
    + (List.zipWith (fun x r => (x⁻¹ * x⁻¹) • r) xs Rs).sum

/-- The expected commitment of the verifier exactly as claim C2 words it:
one multiscalar multiplication whose coefficients are `a·b` for `Q`,
`a·s_i` for each `G_i`, `b·s_{n-1-i}·Hprime_factors_i` for each `H_i`,
`-x_j²` for each `L_vec[j]` and `-x_j⁻²` for each `R_vec[j]`. -/
def expect_P_claim (p : Proof F Pt) (xs s Hprime_factors : List F) (Q : Pt)
    (G_vec H_vec : List Pt) : Pt :=
  (p.a * p.b) • Q
  + (∑ i ∈ Finset.range (2 ^ p.L_vec.length),
      (p.a * s.getD i 0) • G_vec.getD i 0)
  + (∑ i ∈ Finset.range (2 ^ p.L_vec.length),
      ((p.b * s.getD (2 ^ p.L_vec.length - 1 - i) 0)
        * Hprime_factors.getD i 0) • H_vec.getD i 0)
  + (∑ j ∈ Finset.range p.L_vec.length,
      (-(xs.getD j 0 * xs.getD j 0)) • p.L_vec.getD j 0)
  + (∑ j ∈ Finset.range p.L_vec.length,
      (-((xs.getD j 0)⁻¹ * (xs.getD j 0)⁻¹)) • p.R_vec.getD j 0)

/-- Claim C9's reading of `Proof::verify` when the rescale iterator yields
`m < n` scalars: identical to `verify` except that the generators
`H_m .. H_{n-1}` are dropped from the final multiscalar multiplication
(the point sequence is `[Q] ++ G_vec ++ H_vec.take m ++ L_vec ++ R_vec`),
leaving every other coefficient aligned with its intended point. -/
def verify_dropsH_claim (oracle : List (TEvent Pt) → F) (proof : Proof F Pt)
    (t : List (TEvent Pt)) (Hprime_factors : List F) (P Q : Pt)
    (G_vec H_vec : List Pt) :
    Option (Except Unit Unit × List (TEvent Pt)) :=
  let lg_n := proof.L_vec.length
  let n := 2 ^ lg_n
  let ct := verifyChallengesLoop oracle (proof.L_vec.zip proof.R_vec) t
  let challenges := ct.1
  let ia := batch_invert challenges
  let inv_challenges := ia.1
  let allinv := ia.2
  let challenges_sq := challenges.map (fun x => x * x)
  match compute_s challenges_sq lg_n allinv n with
  | none => none
  | some s =>
    let a_times_s := s.map (fun s_i => proof.a * s_i)
    let inv_s := s.reverse
    let h_times_b_div_s :=
      List.zipWith (fun h_i s_i_inv => (proof.b * s_i_inv) * h_i)
        Hprime_factors inv_s
    let neg_x_sq := challenges_sq.map (fun x => -x)
    let neg_x_inv_sq := inv_challenges.map (fun x_inv => -(x_inv * x_inv))
    let expect_P := multiscalar_mult
      ([proof.a * proof.b] ++ a_times_s ++ h_times_b_div_s ++
        neg_x_sq ++ neg_x_inv_sq)
      ([Q] ++ G_vec ++ H_vec.take Hprime_factors.length ++ proof.L_vec ++
        proof.R_vec)
    if expect_P = P then some (Except.ok (), ct.2)
    else some (Except.error (), ct.2)

end Defs

/-- A small prime field used to instantiate the abstract scalar field and
group on concrete inputs. -/
instance fact_prime_101 : Fact (Nat.Prime 101) := ⟨by norm_num⟩

/-- Decidable equality for `verify`'s `Result<(), ()>` outcome. -/
instance instDecEqExceptUnit : DecidableEq (Except Unit Unit) :=
  fun a b =>
    match a, b with
    | Except.ok (), Except.ok () => isTrue rfl
    | Except.error (), Except.error () => isTrue rfl
    | Except.ok (), Except.error () =>
      isFalse (fun h => Except.noConfusion h)
    | Except.error (), Except.ok () =>
      isFalse (fun h => Except.noConfusion h)

/-- A five-element field with a table-based, kernel-computable inverse
(`2⁻¹ = 3`, `3⁻¹ = 2`, `4⁻¹ = 4`), used to evaluate `create` and `verify`
on concrete inputs by `decide`. -/
instance fieldFin5 : Field (Fin 5) :=
  { (inferInstance : CommRing (Fin 5)) with
    inv := fun x => if x = 2 then 3 else if x = 3 then 2 else x,
    div := fun a b => a * (if b = 2 then 3 else if b = 3 then 2 else b),
    div_eq_mul_inv := fun _ _ => rfl,
    exists_pair_ne := ⟨0, 1, by decide⟩,
    mul_inv_cancel := by decide,
    inv_zero := by decide,
    nnqsmul := _,
    nnqsmul_def := fun _ _ => rfl,
    qsmul := _,
    qsmul_def := fun _ _ => rfl }

section BasicLemmas

variable {F : Type} [Field F] {Pt : Type} [AddCommGroup Pt] [Module F Pt]

theorem multiscalar_mult_nil_left (P : List Pt) :
    multiscalar_mult ([] : List F) P = 0 := rfl

theorem multiscalar_mult_nil_right (s : List F) :
    multiscalar_mult s ([] : List Pt) = 0 := by
  cases s <;> rfl

theorem multiscalar_mult_cons (c : F) (p : Pt) (s : List F) (P : List Pt) :
    multiscalar_mult (c :: s) (p :: P) = c • p + multiscalar_mult s P := by
  simp [multiscalar_mult]

theorem multiscalar_mult_append {s1 : List F} {P1 : List Pt}
    (s2 : List F) (P2 : List Pt) (h : s1.length = P1.length) :
    multiscalar_mult (s1 ++ s2) (P1 ++ P2)
      = multiscalar_mult s1 P1 + multiscalar_mult s2 P2 := by
  unfold multiscalar_mult
  rw [List.zipWith_append _ _ _ _ _ h, List.sum_append]

theorem multiscalar_mult_singleton (c : F) (p : Pt) :
    multiscalar_mult [c] [p] = c • p := by
  simp [multiscalar_mult]

theorem multiscalar_mult_map_mul (k : F) :
    ∀ (s : List F) (P : List Pt),
      multiscalar_mult (s.map (fun c => k * c)) P = k • multiscalar_mult s P
  | [], P => by simp [multiscalar_mult]
  | c :: s, [] => by simp [multiscalar_mult]
  | c :: s, p :: P => by
    rw [List.map_cons, multiscalar_mult_cons, multiscalar_mult_cons,
      multiscalar_mult_map_mul k s P, smul_add, smul_smul]

theorem multiscalar_mult_map_neg :
    ∀ (s : List F) (P : List Pt),
      multiscalar_mult (s.map (fun c => -c)) P = -multiscalar_mult s P
  | [], P => by simp [multiscalar_mult]
  | c :: s, [] => by simp [multiscalar_mult]
  | c :: s, p :: P => by
    rw [List.map_cons, multiscalar_mult_cons, multiscalar_mult_cons,
      multiscalar_mult_map_neg s P, neg_smul, neg_add]

theorem multiscalar_mult_take :
    ∀ (s : List F) (P : List Pt),
      multiscalar_mult s P = multiscalar_mult s (P.take s.length)
  | [], P => by simp [multiscalar_mult]
  | c :: s, [] => by simp [multiscalar_mult]
  | c :: s, p :: P => by
    rw [List.length_cons, List.take_succ_cons, multiscalar_mult_cons,
      multiscalar_mult_cons, multiscalar_mult_take s P]

/-- A multiscalar multiplication of equal-length lists as an indexed sum. -/
theorem multiscalar_mult_eq_sum_range :
    ∀ (s : List F) (P : List Pt), s.length = P.length →
      multiscalar_mult s P
        = ∑ i ∈ Finset.range s.length, s.getD i 0 • P.getD i 0
  | [], [], _ => by simp [multiscalar_mult]
  | c :: s, p :: P, h => by
    rw [multiscalar_mult_cons, List.length_cons, Finset.sum_range_succ']
    rw [multiscalar_mult_eq_sum_range s P (by simpa using h)]
    simp [add_comm]

/-- Pointwise-linear combination of two point lists under an msm:
the coefficients distribute onto the two halves. -/
theorem multiscalar_mult_zipWith_linear (α β : F) :
    ∀ (c : List F) (PL PR : List Pt), c.length = PL.length →
      c.length = PR.length →
      multiscalar_mult c (List.zipWith (fun l r => α • l + β • r) PL PR)
        = multiscalar_mult (c.map (fun k => α * k)) PL
          + multiscalar_mult (c.map (fun k => β * k)) PR
  | [], [], [], _, _ => by simp [multiscalar_mult]
  | k :: c, p :: PL, q :: PR, h1, h2 => by
    rw [List.zipWith_cons_cons, multiscalar_mult_cons, List.map_cons,
      List.map_cons, multiscalar_mult_cons, multiscalar_mult_cons,
      multiscalar_mult_zipWith_linear α β c PL PR (by simpa using h1)
        (by simpa using h2)]
    have : k • (α • p + β • q) = (α * k) • p + (β * k) • q := by
      match_scalars <;> ring
    rw [this]
    abel

/-- The fold identity for one round: an msm of folded scalars against folded
points expands into the four cross msms. -/
theorem multiscalar_mult_fold (x y u v : F) :
    ∀ (aL aR : List F) (PL PR : List Pt), aL.length = aR.length →
      aL.length = PL.length → aL.length = PR.length →
      multiscalar_mult (List.zipWith (fun l r => l * x + y * r) aL aR)
          (List.zipWith (fun l r => u • l + v • r) PL PR)
        = (x * u) • multiscalar_mult aL PL + (x * v) • multiscalar_mult aL PR
          + (y * u) • multiscalar_mult aR PL
          + (y * v) • multiscalar_mult aR PR
  | [], [], [], [], _, _, _ => by simp [multiscalar_mult]
  | l :: aL, r :: aR, p :: PL, q :: PR, h1, h2, h3 => by
    rw [List.zipWith_cons_cons, List.zipWith_cons_cons, multiscalar_mult_cons,
      multiscalar_mult_fold x y u v aL aR PL PR (by simpa using h1)
        (by simpa using h2) (by simpa using h3),
      multiscalar_mult_cons, multiscalar_mult_cons, multiscalar_mult_cons,
      multiscalar_mult_cons]
    have : (l * x + y * r) • (u • p + v • q)
        = (x * u) • l • p + (x * v) • l • q + (y * u) • r • p
          + (y * v) • r • q := by
      match_scalars <;> ring
    rw [this, smul_add, smul_add, smul_add, smul_add]
    abel

theorem inner_product_nil_left (b : List F) :
    inner_product ([] : List F) b = 0 := rfl

theorem inner_product_nil_right (a : List F) :
    inner_product a ([] : List F) = 0 := by
  cases a <;> rfl

theorem inner_product_cons (x y : F) (a b : List F) :
    inner_product (x :: a) (y :: b) = x * y + inner_product a b := by
  simp [inner_product]

theorem inner_product_append {a1 b1 : List F} (a2 b2 : List F)
    (h : a1.length = b1.length) :
    inner_product (a1 ++ a2) (b1 ++ b2)
      = inner_product a1 b1 + inner_product a2 b2 := by
  unfold inner_product
  rw [List.zipWith_append _ _ _ _ _ h, List.sum_append]

/-- The fold identity for one round's inner product. -/
theorem inner_product_fold (x y u v : F) :
    ∀ (aL aR bL bR : List F), aL.length = aR.length →
      aL.length = bL.length → aL.length = bR.length →
      inner_product (List.zipWith (fun l r => l * x + y * r) aL aR)
          (List.zipWith (fun l r => l * u + v * r) bL bR)
        = (x * u) * inner_product aL bL + (x * v) * inner_product aL bR
          + (y * u) * inner_product aR bL + (y * v) * inner_product aR bR
  | [], [], [], [], _, _, _ => by simp [inner_product]
  | l :: aL, r :: aR, p :: bL, q :: bR, h1, h2, h3 => by
    rw [List.zipWith_cons_cons, List.zipWith_cons_cons, inner_product_cons,
      inner_product_fold x y u v aL aR bL bR (by simpa using h1)
        (by simpa using h2) (by simpa using h3),
      inner_product_cons, inner_product_cons, inner_product_cons,
      inner_product_cons]
    ring

theorem rescaleH_length :
    ∀ (H : List Pt) (f : List F), (rescaleH H f).length = H.length
  | [], f => by cases f <;> rfl
  | _ :: _, [] => rfl
  | Hi :: H, c :: f => by
    rw [rescaleH, List.length_cons, List.length_cons, rescaleH_length H f]

theorem rescaleH_eq_zipWith :
    ∀ (H : List Pt) (f : List F), H.length ≤ f.length →
      rescaleH H f = List.zipWith (fun h c => c • h) H f
  | [], f, _ => by cases f <;> rfl
  | _ :: _, [], h => by simp at h
  | Hi :: H, c :: f, h => by
    rw [rescaleH, List.zipWith_cons_cons,
      rescaleH_eq_zipWith H f (by simpa using h)]

theorem rescaleH_getD_lt :
    ∀ (H : List Pt) (f : List F) (i : Nat), i < f.length → i < H.length →
      (rescaleH H f).getD i 0 = f.getD i 0 • H.getD i 0
  | [], _, i, _, hH => by simp at hH
  | _ :: _, [], i, hf, _ => by simp at hf
  | Hi :: H, c :: f, 0, _, _ => by simp [rescaleH]
  | Hi :: H, c :: f, i + 1, hf, hH => by
    rw [rescaleH, List.getD_cons_succ, List.getD_cons_succ,
      List.getD_cons_succ,
      rescaleH_getD_lt H f i (by simpa using hf) (by simpa using hH)]

theorem rescaleH_getD_ge :
    ∀ (H : List Pt) (f : List F) (i : Nat), f.length ≤ i →
      (rescaleH H f).getD i 0 = H.getD i 0
  | [], f, i, _ => by cases f <;> rfl
  | _ :: _, [], i, _ => rfl
  | Hi :: H, c :: f, 0, hf => by simp at hf
  | Hi :: H, c :: f, i + 1, hf => by
    rw [rescaleH, List.getD_cons_succ, List.getD_cons_succ,
      rescaleH_getD_ge H f i (by simpa using hf)]

/-- `Σ bᵢ • (fᵢ • Hᵢ) = Σ (bᵢ·fᵢ) • Hᵢ`: an msm against the rescaled
generators equals the msm of the rescaled coefficients. -/
theorem multiscalar_mult_rescaleH :
    ∀ (b : List F) (H : List Pt) (f : List F), H.length ≤ f.length →
      multiscalar_mult b (rescaleH H f)
        = multiscalar_mult (List.zipWith (fun x y => x * y) b f) H
  | [], H, f, _ => by
    rw [multiscalar_mult_nil_left]
    cases H <;> cases f <;> simp [multiscalar_mult]
  | x :: b, [], f, _ => by
    simp [multiscalar_mult, rescaleH]
  | x :: b, Hi :: H, [], h => by simp at h
  | x :: b, Hi :: H, c :: f, h => by
    rw [rescaleH, List.zipWith_cons_cons, multiscalar_mult_cons,
      multiscalar_mult_cons,
      multiscalar_mult_rescaleH b H f (by simpa using h), smul_smul]

end BasicLemmas

section BitLemmas

theorem bit_eq (i j : Nat) : bit i j = i / 2 ^ j % 2 := by
  rw [bit, Nat.one_and_eq_mod_two, Nat.shiftRight_eq_div_pow]

theorem bit_le_one (i j : Nat) : bit i j ≤ 1 := by
  rw [bit_eq]
  omega

theorem bit_zero (i : Nat) : bit i 0 = i % 2 := by
  rw [bit_eq, pow_zero, Nat.div_one]

theorem bit_succ (i j : Nat) : bit i (j + 1) = bit (i / 2) j := by
  rw [bit_eq, bit_eq, Nat.div_div_eq_div_mul, pow_succ, mul_comm]

theorem bit_of_lt {i j : Nat} (h : i < 2 ^ j) : bit i j = 0 := by
  rw [bit_eq, Nat.div_eq_of_lt h]

theorem bit_add_pow_self {i r : Nat} (h : i < 2 ^ r) :
    bit (2 ^ r + i) r = 1 := by
  rw [bit_eq, Nat.add_div_left _ (Nat.pos_pow_of_pos r (by norm_num)),
    Nat.div_eq_of_lt h]

theorem bit_add_pow_lt {j r : Nat} (h : j < r) (i : Nat) :
    bit (2 ^ r + i) j = bit i j := by
  rw [bit_eq, bit_eq]
  have hpow : 2 ^ r = 2 ^ j * 2 ^ (r - j) := by
    rw [← pow_add]
    congr 1
    omega
  have hdiv : (2 ^ r + i) / 2 ^ j = 2 ^ (r - j) + i / 2 ^ j := by
    rw [hpow, Nat.mul_add_div (Nat.pos_pow_of_pos j (by norm_num))]
  have h2 : 2 ^ (r - j) = 2 * 2 ^ (r - j - 1) := by
    rw [← pow_succ']
    congr 1
    omega
  rw [hdiv, h2, Nat.add_comm, Nat.add_mul_mod_self_left]

/-- For `i < 2^k`, the bits of `2^k - 1 - i` are the complements of the bits
of `i` at every position below `k`. -/
theorem bit_complement :
    ∀ (k : Nat) {i : Nat}, i < 2 ^ k → ∀ {j : Nat}, j < k →
      bit (2 ^ k - 1 - i) j = 1 - bit i j := by
  intro k
  induction k with
  | zero => intro i _ j hj; omega
  | succ k ih =>
    intro i hi j hj
    have hq : i / 2 < 2 ^ k := by
      have : i < 2 ^ k * 2 := by rw [← pow_succ]; exact hi
      omega
    have hr : i % 2 < 2 := Nat.mod_lt _ (by norm_num)
    have hdecomp : 2 ^ (k + 1) - 1 - i
        = 2 * (2 ^ k - 1 - i / 2) + (1 - i % 2) := by
      have h1 : 2 ^ (k + 1) = 2 * 2 ^ k := by rw [pow_succ, mul_comm]
      have h2 : i = 2 * (i / 2) + i % 2 := (Nat.div_add_mod i 2).symm
      have h3 : 1 ≤ 2 ^ k := Nat.one_le_two_pow
      omega
    cases j with
    | zero =>
      rw [hdecomp, bit_zero, bit_zero, Nat.add_comm, Nat.add_mul_mod_self_left]
      omega
    | succ j =>
      rw [hdecomp, bit_succ, bit_succ]
      have : (2 * (2 ^ k - 1 - i / 2) + (1 - i % 2)) / 2
          = 2 ^ k - 1 - i / 2 := by
        rw [Nat.add_comm, Nat.add_mul_div_left _ _ (by norm_num),
          Nat.div_eq_of_lt (by omega)]
        omega
      rw [this, ih hq (by omega)]

end BitLemmas

section SLemmas

variable {F : Type} [Field F]

/-- Turn a `List.range`-indexed list product into a `Finset.range` product. -/
theorem prod_map_range (f : Nat → F) :
    ∀ n : Nat, ((List.range n).map f).prod = ∏ j ∈ Finset.range n, f j := by
  intro n
  induction n with
  | zero => simp
  | succ n ih =>
    rw [List.range_succ, List.map_append, List.prod_append,
      Finset.prod_range_succ, ih]
    simp

theorem sStep_foldl (csq : List F) (lg_n i : Nat) :
    ∀ (js : List Nat) (a : F),
      (∀ j ∈ js, bit i j = 1 → lg_n - 1 - j < csq.length) →
      js.foldl (sStep csq lg_n i) (some a)
        = some (a * (js.map
            (fun j => if bit i j = 1 then csq.getD (lg_n - 1 - j) 1
              else 1)).prod) := by
  intro js
  induction js with
  | nil => intro a _; simp
  | cons j js ih =>
    intro a hbound
    rw [List.foldl_cons, List.map_cons, List.prod_cons]
    by_cases hb : bit i j = 1
    · have hlt : lg_n - 1 - j < csq.length := hbound j (by simp) hb
      have hget : csq[lg_n - 1 - j]? = some (csq.getD (lg_n - 1 - j) 1) := by
        rw [List.getElem?_eq_getElem hlt, List.getD_eq_getElem _ _ hlt]
      have hstep : sStep csq lg_n i (some a) j
          = some (a * csq.getD (lg_n - 1 - j) 1) := by
        rw [sStep, Option.some_bind, if_pos hb, List.get?_eq_getElem?, hget,
          Option.map_some']
      rw [hstep, ih _ (fun j hj => hbound j (by simp [hj]))]
      simp [hb, mul_assoc]
    · have hstep : sStep csq lg_n i (some a) j = some a := by
        rw [sStep, Option.some_bind, if_neg hb]
      rw [hstep, ih _ (fun j hj => hbound j (by simp [hj]))]
      simp [hb]

/-- Closed form of the `s_i` inner loop (lines 168–175) when every index is
in bounds. -/
theorem compute_s_i_eq (csq : List F) (lg_n : Nat) (allinv : F) (i : Nat)
    (h : lg_n ≤ csq.length) :
    compute_s_i csq lg_n allinv i
      = some (allinv * ∏ j ∈ Finset.range lg_n,
          if bit i j = 1 then csq.getD (lg_n - 1 - j) 1 else 1) := by
  rw [compute_s_i, sStep_foldl]
  · rw [prod_map_range (fun j => if bit i j = 1 then csq.getD (lg_n - 1 - j) 1
      else 1) lg_n]
  · intro j hj _
    have : j < lg_n := List.mem_range.mp hj
    omega

theorem collectSome_map {α β : Type} (f : β → Option α) (g : β → α) :
    ∀ (l : List β), (∀ x ∈ l, f x = some (g x)) →
      collectSome (l.map f) = some (l.map g) := by
  intro l
  induction l with
  | nil => intro _; rfl
  | cons x l ih =>
    intro h
    rw [List.map_cons, List.map_cons, collectSome, h x (by simp),
      ih (fun y hy => h y (by simp [hy]))]
    rfl

/-- Closed form of the whole `s` vector (lines 166–178) when every index is
in bounds: `compute_s` succeeds and `s_i` is the bit-indexed product. -/
theorem compute_s_eq (csq : List F) (lg_n : Nat) (allinv : F) (n : Nat)
    (h : lg_n ≤ csq.length) :
    compute_s csq lg_n allinv n
      = some ((List.range n).map (fun i => allinv *
          ∏ j ∈ Finset.range lg_n,
            if bit i j = 1 then csq.getD (lg_n - 1 - j) 1 else 1)) := by
  rw [compute_s, collectSome_map _ _ _
    (fun i _ => compute_s_i_eq csq lg_n allinv i h)]

theorem getD_map_range {α : Type} (g : Nat → α) (d : α) {n i : Nat}
    (h : i < n) : ((List.range n).map g).getD i d = g i := by
  rw [List.getD_eq_getElem?_getD, List.getElem?_map, List.getElem?_range h]
  rfl

theorem inv_mul_self_mul (x : F) : x⁻¹ * (x * x) = x := by
  rcases eq_or_ne x 0 with h | h
  · simp [h]
  · field_simp

theorem prod_map_inv :
    ∀ xs : List F, (xs.map (fun x => x⁻¹)).prod = xs.prod⁻¹
  | [] => by simp
  | x :: xs => by
    rw [List.map_cons, List.prod_cons, List.prod_cons, mul_inv,
      prod_map_inv xs]

theorem prod_map_sq :
    ∀ xs : List F, (xs.map (fun x => x * x)).prod = xs.prod * xs.prod
  | [] => by simp
  | x :: xs => by
    rw [List.map_cons, List.prod_cons, List.prod_cons, prod_map_sq xs]
    ring

theorem prod_getD_eq_prod :
    ∀ (l : List F) (k : Nat), l.length = k →
      (∏ j ∈ Finset.range k, l.getD j 1) = l.prod
  | [], 0, _ => by simp
  | [], k + 1, h => by simp at h
  | c :: l, 0, h => by simp at h
  | c :: l, k + 1, h => by
    rw [Finset.prod_range_succ']
    simp only [List.getD_cons_succ, List.getD_cons_zero]
    rw [prod_getD_eq_prod l k (by simpa using h), List.prod_cons, mul_comm]

end SLemmas

section SRec

variable {F : Type} [Field F]

theorem sRec_length : ∀ (xs : List F), (sRec xs).length = 2 ^ xs.length
  | [] => rfl
  | x :: rest => by
    rw [sRec, List.length_append, List.length_map, List.length_map,
      sRec_length rest, List.length_cons, pow_succ]
    ring

/-- The code's closed-form `s_i` (an `allinv ·` bit-indexed product over the
squared challenges in reverse creation order) equals the recursive folding
coefficient `(sRec xs)_i`. -/
theorem inv_shuffle (x A B : F) : x⁻¹ * A * (B * (x * x)) = x * (A * B) := by
  have h : x⁻¹ * A * (B * (x * x)) = x⁻¹ * (x * x) * (A * B) := by ring
  rw [h, inv_mul_self_mul]

theorem sRec_getD :
    ∀ (xs : List F) (i : Nat), i < 2 ^ xs.length →
      (sRec xs).getD i 0
        = (xs.map (fun x => x⁻¹)).prod
          * ∏ j ∈ Finset.range xs.length,
              if bit i j = 1
                then (xs.map (fun x => x * x)).getD (xs.length - 1 - j) 1
                else 1
  | [], i, hi => by
    have h0 : i = 0 := by
      rw [List.length_nil, pow_zero] at hi
      omega
    subst h0
    simp [sRec]
  | x :: rest, i, hi => by
    have hr := @sRec_length F _ rest
    have hlenmap : ((sRec rest).map (fun c => x⁻¹ * c)).length
        = 2 ^ rest.length := by rw [List.length_map, hr]
    rw [List.length_cons, Finset.prod_range_succ]
    by_cases hlow : i < 2 ^ rest.length
    · have hbit : bit i rest.length = 0 := bit_of_lt hlow
      have hgetL : (sRec (x :: rest)).getD i 0
          = x⁻¹ * (sRec rest).getD i 0 := by
        rw [sRec, List.getD_append _ _ _ _ (by rw [hlenmap]; exact hlow),
          List.getD_eq_getElem _ _ (by rw [hlenmap]; exact hlow),
          List.getElem_map, ← List.getD_eq_getElem _ 0 (by rw [hr]; exact hlow)]
      have hprodcongr :
          (∏ j ∈ Finset.range rest.length,
            if bit i j = 1
              then ((x :: rest).map (fun y => y * y)).getD
                (rest.length + 1 - 1 - j) 1
              else 1)
          = ∏ j ∈ Finset.range rest.length,
              if bit i j = 1
                then (rest.map (fun y => y * y)).getD (rest.length - 1 - j) 1
                else 1 := by
        refine Finset.prod_congr rfl (fun j hj => ?_)
        have hjlt : j < rest.length := Finset.mem_range.mp hj
        have hidx : rest.length + 1 - 1 - j = (rest.length - 1 - j) + 1 := by
          omega
        rw [hidx, List.map_cons, List.getD_cons_succ]
      rw [hgetL, sRec_getD rest i hlow, hprodcongr, hbit, List.map_cons,
        List.prod_cons]
      rw [if_neg (by omega)]
      ring
    · have hhigh : i - 2 ^ rest.length < 2 ^ rest.length := by
        rw [List.length_cons, pow_succ] at hi
        omega
      have hisplit : i = 2 ^ rest.length + (i - 2 ^ rest.length) := by omega
      have hbit : bit i rest.length = 1 := by
        rw [hisplit]
        exact bit_add_pow_self hhigh
      have hbits : ∀ j < rest.length, bit i j = bit (i - 2 ^ rest.length) j := by
        intro j hj
        conv_lhs => rw [hisplit]
        exact bit_add_pow_lt hj _
      have hgetL : (sRec (x :: rest)).getD i 0
          = x * (sRec rest).getD (i - 2 ^ rest.length) 0 := by
        rw [sRec, List.getD_append_right _ _ _ _ (by rw [hlenmap]; omega),
          hlenmap,
          List.getD_eq_getElem _ _ (by rw [List.length_map, hr]; exact hhigh),
          List.getElem_map,
          ← List.getD_eq_getElem _ 0 (by rw [hr]; exact hhigh)]
      have hcongr2 :
          (∏ j ∈ Finset.range rest.length,
            if bit i j = 1
              then ((x :: rest).map (fun y => y * y)).getD
                (rest.length + 1 - 1 - j) 1
              else 1)
          = ∏ j ∈ Finset.range rest.length,
              if bit (i - 2 ^ rest.length) j = 1
                then (rest.map (fun y => y * y)).getD (rest.length - 1 - j) 1
                else 1 := by
        refine Finset.prod_congr rfl (fun j hj => ?_)
        have hjlt : j < rest.length := Finset.mem_range.mp hj
        have hidx : rest.length + 1 - 1 - j = (rest.length - 1 - j) + 1 := by
          omega
        rw [hbits j hjlt, hidx, List.map_cons, List.getD_cons_succ]
      have hfac : ((x :: rest).map (fun y => y * y)).getD
          (rest.length + 1 - 1 - rest.length) 1 = x * x := by
        have hidx0 : rest.length + 1 - 1 - rest.length = 0 := by omega
        rw [hidx0, List.map_cons, List.getD_cons_zero]
      rw [hgetL, sRec_getD rest _ hhigh, hcongr2, hbit, if_pos rfl, hfac,
        List.map_cons, List.prod_cons, inv_shuffle]

/-- The verifier's `s` computation (lines 155–178), fed the squared
challenges, their batch inverses and `allinv`, succeeds and produces exactly
the recursive folding coefficients `sRec xs`. -/
theorem compute_s_sRec (xs : List F) (lg : Nat) (hlg : lg = xs.length) :
    compute_s (xs.map (fun x => x * x)) lg ((xs.map (fun x => x⁻¹)).prod)
        (2 ^ lg)
      = some (sRec xs) := by
  subst hlg
  rw [compute_s_eq _ _ _ _ (by rw [List.length_map])]
  congr 1
  apply List.ext_getElem
  · rw [List.length_map, List.length_range, sRec_length]
  · intro i h1 h2
    have hi : i < 2 ^ xs.length := by
      rw [List.length_map, List.length_range] at h1
      exact h1
    rw [← List.getD_eq_getElem _ 0 h1, ← List.getD_eq_getElem _ 0 h2,
      getD_map_range _ _ hi, sRec_getD xs i hi]

end SRec

section LoopLemmas

variable {F : Type} [Field F] {Pt : Type} [AddCommGroup Pt] [Module F Pt]

/-- Unfolding equation for `createLoop` at active length 1. -/
theorem createLoop_base (oracle : List (TEvent Pt) → F) (Q : Pt) (fuel : Nat)
    (t : List (TEvent Pt)) (Gv Hv : List Pt) (a0 b0 : F) (a b : List F) :
    createLoop oracle Q fuel 1 t Gv Hv (a0 :: a) (b0 :: b)
      = some (⟨[], [], a0, b0⟩, t) := by
  cases fuel <;> simp [createLoop]

/-- Unfolding equation for one round of `createLoop` (`n ≠ 1`). -/
theorem createLoop_succ (oracle : List (TEvent Pt) → F) (Q : Pt)
    (fuel n : Nat) (t : List (TEvent Pt)) (Gv Hv : List Pt) (a b : List F)
    (hn : n ≠ 1) :
    createLoop oracle Q (fuel + 1) n t Gv Hv a b
      = (createLoop oracle Q fuel (n / 2)
            (challenge_scalar oracle
              (commit (commit t (round_L Q (n / 2) Gv Hv a b))
                (round_R Q (n / 2) Gv Hv a b))).2
            (fold_G (challenge_scalar oracle
              (commit (commit t (round_L Q (n / 2) Gv Hv a b))
                (round_R Q (n / 2) Gv Hv a b))).1 (n / 2) Gv)
            (fold_H (challenge_scalar oracle
              (commit (commit t (round_L Q (n / 2) Gv Hv a b))
                (round_R Q (n / 2) Gv Hv a b))).1 (n / 2) Hv)
            (fold_a (challenge_scalar oracle
              (commit (commit t (round_L Q (n / 2) Gv Hv a b))
                (round_R Q (n / 2) Gv Hv a b))).1 (n / 2) a)
            (fold_b (challenge_scalar oracle
              (commit (commit t (round_L Q (n / 2) Gv Hv a b))
                (round_R Q (n / 2) Gv Hv a b))).1 (n / 2) b)).map
          (fun pt => (⟨round_L Q (n / 2) Gv Hv a b :: pt.1.L_vec,
            round_R Q (n / 2) Gv Hv a b :: pt.1.R_vec, pt.1.a, pt.1.b⟩,
            pt.2)) := by
  rw [createLoop]
  rw [if_neg hn]

/-- Exhausted fuel with `n ≠ 1` is `none`. -/
theorem createLoop_zero (oracle : List (TEvent Pt) → F) (Q : Pt) (n : Nat)
    (t : List (TEvent Pt)) (Gv Hv : List Pt) (a b : List F) (hn : n ≠ 1) :
    createLoop oracle Q 0 n t Gv Hv a b = none := by
  rw [createLoop]
  rw [if_neg hn]

theorem fold_a_length (x : F) (n' : Nat) (a : List F) :
    (fold_a x n' a).length = min n' (a.length - n') := by
  simp [fold_a, List.length_take, List.length_drop]

theorem fold_b_length (x : F) (n' : Nat) (b : List F) :
    (fold_b x n' b).length = min n' (b.length - n') := by
  simp [fold_b, List.length_take, List.length_drop]

theorem fold_G_length (x : F) (n' : Nat) (Gv : List Pt) :
    (fold_G x n' Gv).length = min n' (Gv.length - n') := by
  simp [fold_G, List.length_take, List.length_drop]

theorem fold_H_length (x : F) (n' : Nat) (Hv : List Pt) :
    (fold_H x n' Hv).length = min n' (Hv.length - n') := by
  simp [fold_H, List.length_take, List.length_drop]

theorem multiscalar_mult_split (m : Nat) (s : List F) (P : List Pt)
    (h : (s.take m).length = (P.take m).length) :
    multiscalar_mult s P
      = multiscalar_mult (s.take m) (P.take m)
        + multiscalar_mult (s.drop m) (P.drop m) := by
  calc multiscalar_mult s P
      = multiscalar_mult (s.take m ++ s.drop m) (P.take m ++ P.drop m) := by
        rw [List.take_append_drop, List.take_append_drop]
    _ = _ := multiscalar_mult_append _ _ h

theorem inner_product_split (m : Nat) (a b : List F)
    (h : (a.take m).length = (b.take m).length) :
    inner_product a b
      = inner_product (a.take m) (b.take m)
        + inner_product (a.drop m) (b.drop m) := by
  calc inner_product a b
      = inner_product (a.take m ++ a.drop m) (b.take m ++ b.drop m) := by
        rw [List.take_append_drop, List.take_append_drop]
    _ = _ := inner_product_append _ _ h

theorem sumLR_nil : sumLR ([] : List F) ([] : List Pt) [] = 0 := by
  simp [sumLR]

theorem sumLR_cons (x : F) (L R : Pt) (xs : List F) (Ls Rs : List Pt) :
    sumLR (x :: xs) (L :: Ls) (R :: Rs)
      = (x * x) • L + (x⁻¹ * x⁻¹) • R + sumLR xs Ls Rs := by
  simp only [sumLR, List.zipWith_cons_cons, List.sum_cons]
  abel

/-- One folding round preserves the commitment identity: folding the vectors
with challenge `x ≠ 0` turns `P₀ = <a,G> + <b,H> + <a,b>•Q` into
`P₀ + x²•L + x⁻²•R`, and the coefficient lists compose through `sRec`. -/
theorem createLoop_round_identity (Q : Pt) {x : F} (hx : x ≠ 0) {k : Nat}
    {Gv Hv : List Pt} {a b : List F} {p : Proof F Pt} {xs : List F}
    (ha : a.length = 2 ^ (k + 1)) (hb : b.length = 2 ^ (k + 1))
    (hG : Gv.length = 2 ^ (k + 1)) (hH : Hv.length = 2 ^ (k + 1))
    (hlen2 : (2 : Nat) ^ (k + 1) = 2 ^ k + 2 ^ k) (hxslen : xs.length = k)
    (heq : p.a • multiscalar_mult (sRec xs) (fold_G x (2 ^ k) Gv)
        + p.b • multiscalar_mult (sRec xs).reverse (fold_H x (2 ^ k) Hv)
        + (p.a * p.b) • Q
      = multiscalar_mult (fold_a x (2 ^ k) a) (fold_G x (2 ^ k) Gv)
        + multiscalar_mult (fold_b x (2 ^ k) b) (fold_H x (2 ^ k) Hv)
        + inner_product (fold_a x (2 ^ k) a) (fold_b x (2 ^ k) b) • Q
        + sumLR xs p.L_vec p.R_vec) :
    p.a • multiscalar_mult (sRec (x :: xs)) Gv
      + p.b • multiscalar_mult (sRec (x :: xs)).reverse Hv
      + (p.a * p.b) • Q
    = multiscalar_mult a Gv + multiscalar_mult b Hv + inner_product a b • Q
      + sumLR (x :: xs) (round_L Q (2 ^ k) Gv Hv a b :: p.L_vec)
          (round_R Q (2 ^ k) Gv Hv a b :: p.R_vec) := by
  have hsG : (sRec xs).length = 2 ^ k := by rw [sRec_length, hxslen]
  have hTa : (a.take (2 ^ k)).length = 2 ^ k := by rw [List.length_take]; omega
  have hDa : (a.drop (2 ^ k)).length = 2 ^ k := by rw [List.length_drop]; omega
  have hTb : (b.take (2 ^ k)).length = 2 ^ k := by rw [List.length_take]; omega
  have hDb : (b.drop (2 ^ k)).length = 2 ^ k := by rw [List.length_drop]; omega
  have hTG : (Gv.take (2 ^ k)).length = 2 ^ k := by rw [List.length_take]; omega
  have hDG : (Gv.drop (2 ^ k)).length = 2 ^ k := by rw [List.length_drop]; omega
  have hTH : (Hv.take (2 ^ k)).length = 2 ^ k := by rw [List.length_take]; omega
  have hDH : (Hv.drop (2 ^ k)).length = 2 ^ k := by rw [List.length_drop]; omega
  have EG : multiscalar_mult (sRec (x :: xs)) Gv
      = multiscalar_mult (sRec xs) (fold_G x (2 ^ k) Gv) := by
    conv_lhs => rw [sRec, ← List.take_append_drop (2 ^ k) Gv]
    rw [multiscalar_mult_append _ _ (by rw [List.length_map, hsG, hTG]),
      fold_G, multiscalar_mult_zipWith_linear x⁻¹ x _ _ _
        (by rw [hsG, hTG]) (by rw [hsG, hDG])]
  have EH : multiscalar_mult (sRec (x :: xs)).reverse Hv
      = multiscalar_mult (sRec xs).reverse (fold_H x (2 ^ k) Hv) := by
    conv_lhs => rw [sRec, List.reverse_append, List.reverse_map,
      List.reverse_map, ← List.take_append_drop (2 ^ k) Hv]
    rw [multiscalar_mult_append _ _
        (by rw [List.length_map, List.length_reverse, hsG, hTH]),
      fold_H, multiscalar_mult_zipWith_linear x x⁻¹ _ _ _
        (by rw [List.length_reverse, hsG, hTH])
        (by rw [List.length_reverse, hsG, hDH])]
  have E3 : multiscalar_mult (fold_a x (2 ^ k) a) (fold_G x (2 ^ k) Gv)
      = multiscalar_mult a Gv
        + (x * x) • multiscalar_mult (a.take (2 ^ k)) (Gv.drop (2 ^ k))
        + (x⁻¹ * x⁻¹) • multiscalar_mult (a.drop (2 ^ k)) (Gv.take (2 ^ k)) := by
    rw [fold_a, fold_G, multiscalar_mult_fold x x⁻¹ x⁻¹ x _ _ _ _
        (by rw [hTa, hDa]) (by rw [hTa, hTG]) (by rw [hTa, hDG]),
      mul_inv_cancel₀ hx, inv_mul_cancel₀ hx, one_smul, one_smul,
      multiscalar_mult_split (2 ^ k) a Gv (by rw [hTa, hTG])]
    abel
  have E4 : multiscalar_mult (fold_b x (2 ^ k) b) (fold_H x (2 ^ k) Hv)
      = multiscalar_mult b Hv
        + (x * x) • multiscalar_mult (b.drop (2 ^ k)) (Hv.take (2 ^ k))
        + (x⁻¹ * x⁻¹) • multiscalar_mult (b.take (2 ^ k)) (Hv.drop (2 ^ k)) := by
    rw [fold_b, fold_H, multiscalar_mult_fold x⁻¹ x x x⁻¹ _ _ _ _
        (by rw [hTb, hDb]) (by rw [hTb, hTH]) (by rw [hTb, hDH]),
      mul_inv_cancel₀ hx, inv_mul_cancel₀ hx, one_smul, one_smul,
      multiscalar_mult_split (2 ^ k) b Hv (by rw [hTb, hTH])]
    abel
  have E5 : inner_product (fold_a x (2 ^ k) a) (fold_b x (2 ^ k) b)
      = inner_product a b + (x * x) * round_c_L a b (2 ^ k)
        + (x⁻¹ * x⁻¹) * round_c_R a b (2 ^ k) := by
    rw [fold_a, fold_b, inner_product_fold x x⁻¹ x⁻¹ x _ _ _ _
        (by rw [hTa, hDa]) (by rw [hTa, hTb]) (by rw [hTa, hDb]),
      mul_inv_cancel₀ hx, inv_mul_cancel₀ hx, one_mul, one_mul,
      inner_product_split (2 ^ k) a b (by rw [hTa, hTb]), round_c_L,
      round_c_R]
    ring
  have E6 : round_L Q (2 ^ k) Gv Hv a b
      = multiscalar_mult (a.take (2 ^ k)) (Gv.drop (2 ^ k))
        + multiscalar_mult (b.drop (2 ^ k)) (Hv.take (2 ^ k))
        + round_c_L a b (2 ^ k) • Q := by
    rw [round_L,
      multiscalar_mult_append _ _ (by
        rw [List.length_append, List.length_append, hTa, hDb, hDG, hTH]),
      multiscalar_mult_append _ _ (by rw [hTa, hDG]),
      multiscalar_mult_singleton]
  have E7 : round_R Q (2 ^ k) Gv Hv a b
      = multiscalar_mult (a.drop (2 ^ k)) (Gv.take (2 ^ k))
        + multiscalar_mult (b.take (2 ^ k)) (Hv.drop (2 ^ k))
        + round_c_R a b (2 ^ k) • Q := by
    rw [round_R,
      multiscalar_mult_append _ _ (by
        rw [List.length_append, List.length_append, hDa, hTb, hTG, hDH]),
      multiscalar_mult_append _ _ (by rw [hDa, hTG]),
      multiscalar_mult_singleton]
  calc p.a • multiscalar_mult (sRec (x :: xs)) Gv
        + p.b • multiscalar_mult (sRec (x :: xs)).reverse Hv
        + (p.a * p.b) • Q
      = p.a • multiscalar_mult (sRec xs) (fold_G x (2 ^ k) Gv)
        + p.b • multiscalar_mult (sRec xs).reverse (fold_H x (2 ^ k) Hv)
        + (p.a * p.b) • Q := by rw [EG, EH]
    _ = multiscalar_mult (fold_a x (2 ^ k) a) (fold_G x (2 ^ k) Gv)
        + multiscalar_mult (fold_b x (2 ^ k) b) (fold_H x (2 ^ k) Hv)
        + inner_product (fold_a x (2 ^ k) a) (fold_b x (2 ^ k) b) • Q
        + sumLR xs p.L_vec p.R_vec := heq
    _ = (multiscalar_mult a Gv
          + (x * x) • multiscalar_mult (a.take (2 ^ k)) (Gv.drop (2 ^ k))
          + (x⁻¹ * x⁻¹) • multiscalar_mult (a.drop (2 ^ k)) (Gv.take (2 ^ k)))
        + (multiscalar_mult b Hv
          + (x * x) • multiscalar_mult (b.drop (2 ^ k)) (Hv.take (2 ^ k))
          + (x⁻¹ * x⁻¹) • multiscalar_mult (b.take (2 ^ k)) (Hv.drop (2 ^ k)))
        + (inner_product a b + (x * x) * round_c_L a b (2 ^ k)
          + (x⁻¹ * x⁻¹) * round_c_R a b (2 ^ k)) • Q
        + sumLR xs p.L_vec p.R_vec := by rw [E3, E4, E5]
    _ = multiscalar_mult a Gv + multiscalar_mult b Hv + inner_product a b • Q
        + ((x * x) • round_L Q (2 ^ k) Gv Hv a b
          + (x⁻¹ * x⁻¹) • round_R Q (2 ^ k) Gv Hv a b
          + sumLR xs p.L_vec p.R_vec) := by
        have hm1 : (x * x * round_c_L a b (2 ^ k)) • Q
            = (x * x) • round_c_L a b (2 ^ k) • Q := mul_smul _ _ _
        have hm2 : (x⁻¹ * x⁻¹ * round_c_R a b (2 ^ k)) • Q
            = (x⁻¹ * x⁻¹) • round_c_R a b (2 ^ k) • Q := mul_smul _ _ _
        rw [E6, E7, add_smul, add_smul, hm1, hm2, smul_add,
          smul_add, smul_add, smul_add]
        abel
    _ = multiscalar_mult a Gv + multiscalar_mult b Hv + inner_product a b • Q
        + sumLR (x :: xs) (round_L Q (2 ^ k) Gv Hv a b :: p.L_vec)
            (round_R Q (2 ^ k) Gv Hv a b :: p.R_vec) := by
        rw [sumLR_cons]

/-- The heart of completeness: a successful run of the folding loop on
vectors of length `2^k` yields a proof whose transcript replay (as performed
by `verify`) reproduces the challenges, and whose folded scalars satisfy the
commitment identity `a'•G' + b'•H' + (a'b')•Q = P₀ + Σ xⱼ²•Lⱼ + Σ xⱼ⁻²•Rⱼ`,
with `G' = Σ (sRec xs)ᵢ•Gᵢ` and `H' = Σ (sRec xs)ⁿ⁻¹⁻ⁱ•Hᵢ`. -/
theorem createLoop_run (oracle : List (TEvent Pt) → F) (Q : Pt)
    (hor : ∀ l, oracle l ≠ 0) :
    ∀ (k : Nat) (fuel : Nat) (t : List (TEvent Pt)) (Gv Hv : List Pt)
      (a b : List F),
      k ≤ fuel → a.length = 2 ^ k → b.length = 2 ^ k →
      Gv.length = 2 ^ k → Hv.length = 2 ^ k →
      ∃ (p : Proof F Pt) (t' : List (TEvent Pt)) (xs : List F),
        createLoop oracle Q fuel (2 ^ k) t Gv Hv a b = some (p, t') ∧
        p.L_vec.length = k ∧ p.R_vec.length = k ∧
        verifyChallengesLoop oracle (p.L_vec.zip p.R_vec) t = (xs, t') ∧
        xs.length = k ∧ (∀ x ∈ xs, x ≠ 0) ∧
        p.a • multiscalar_mult (sRec xs) Gv
          + p.b • multiscalar_mult (sRec xs).reverse Hv
          + (p.a * p.b) • Q
        = multiscalar_mult a Gv + multiscalar_mult b Hv
          + inner_product a b • Q + sumLR xs p.L_vec p.R_vec := by
  intro k
  induction k with
  | zero =>
    intro fuel t Gv Hv a b hfuel ha hb hG hH
    obtain ⟨a0, rfl⟩ : ∃ a0, a = [a0] := List.length_eq_one.mp (by simpa using ha)
    obtain ⟨b0, rfl⟩ : ∃ b0, b = [b0] := List.length_eq_one.mp (by simpa using hb)
    obtain ⟨g0, rfl⟩ : ∃ g0, Gv = [g0] := List.length_eq_one.mp (by simpa using hG)
    obtain ⟨h0, rfl⟩ : ∃ h0, Hv = [h0] := List.length_eq_one.mp (by simpa using hH)
    refine ⟨⟨[], [], a0, b0⟩, t, [], ?_, rfl, rfl, rfl, rfl, by simp, ?_⟩
    · rw [pow_zero]
      exact createLoop_base oracle Q fuel t [g0] [h0] a0 b0 [] []
    · simp only [sRec, List.reverse_singleton, sumLR_nil,
        multiscalar_mult_singleton, inner_product_cons,
        inner_product_nil_left, one_smul, add_zero]
  | succ k ih =>
    intro fuel t Gv Hv a b hfuel ha hb hG hH
    obtain ⟨f, rfl⟩ : ∃ f, fuel = f + 1 := ⟨fuel - 1, by omega⟩
    have hn1 : (2 : Nat) ^ (k + 1) ≠ 1 := by
      have : (2 : Nat) ^ (k + 1) = 2 * 2 ^ k := by rw [pow_succ]; ring
      have h1 : (1 : Nat) ≤ 2 ^ k := Nat.one_le_two_pow
      omega
    have hhalf : 2 ^ (k + 1) / 2 = 2 ^ k := by
      rw [pow_succ]
      exact Nat.mul_div_cancel _ (by norm_num)
    have hlen2 : (2 : Nat) ^ (k + 1) = 2 ^ k + 2 ^ k := by rw [pow_succ]; omega
    obtain ⟨p, t', xs, hloop, hLlen, hRlen, hreplay, hxslen, hxs0, heq⟩ :=
      ih f
        (challenge_scalar oracle
          (commit (commit t (round_L Q (2 ^ k) Gv Hv a b))
            (round_R Q (2 ^ k) Gv Hv a b))).2
        (fold_G (challenge_scalar oracle
          (commit (commit t (round_L Q (2 ^ k) Gv Hv a b))
            (round_R Q (2 ^ k) Gv Hv a b))).1 (2 ^ k) Gv)
        (fold_H (challenge_scalar oracle
          (commit (commit t (round_L Q (2 ^ k) Gv Hv a b))
            (round_R Q (2 ^ k) Gv Hv a b))).1 (2 ^ k) Hv)
        (fold_a (challenge_scalar oracle
          (commit (commit t (round_L Q (2 ^ k) Gv Hv a b))
            (round_R Q (2 ^ k) Gv Hv a b))).1 (2 ^ k) a)
        (fold_b (challenge_scalar oracle
          (commit (commit t (round_L Q (2 ^ k) Gv Hv a b))
            (round_R Q (2 ^ k) Gv Hv a b))).1 (2 ^ k) b)
        (by omega)
        (by rw [fold_a_length, ha]; omega)
        (by rw [fold_b_length, hb]; omega)
        (by rw [fold_G_length, hG]; omega)
        (by rw [fold_H_length, hH]; omega)
    refine ⟨⟨round_L Q (2 ^ k) Gv Hv a b :: p.L_vec,
      round_R Q (2 ^ k) Gv Hv a b :: p.R_vec, p.a, p.b⟩, t',
      (challenge_scalar oracle
        (commit (commit t (round_L Q (2 ^ k) Gv Hv a b))
          (round_R Q (2 ^ k) Gv Hv a b))).1 :: xs,
      ?_, by simpa using hLlen, by simpa using hRlen, ?_, by simpa using hxslen,
      ?_, ?_⟩
    · rw [createLoop_succ oracle Q f (2 ^ (k + 1)) t Gv Hv a b hn1, hhalf,
        hloop, Option.map_some']
    · rw [List.zip_cons_cons]
      simp only [verifyChallengesLoop]
      rw [hreplay]
    · intro y hy
      rcases List.mem_cons.mp hy with hy | hy
      · rw [hy, challenge_scalar]
        exact hor _
      · exact hxs0 y hy
    · -- the algebraic identity for one round plus the inductive identity
      have hx0 : (challenge_scalar oracle
          (commit (commit t (round_L Q (2 ^ k) Gv Hv a b))
            (round_R Q (2 ^ k) Gv Hv a b))).1 ≠ 0 := by
        rw [challenge_scalar]
        exact hor _
      exact createLoop_round_identity Q hx0 ha hb hG hH hlen2 hxslen heq

end LoopLemmas

section VerifyLemmas

variable {F : Type} [Field F] {Pt : Type} [AddCommGroup Pt] [Module F Pt]

/-- An msm whose coefficients are a mapped list, as a zipWith sum. -/
theorem multiscalar_mult_map (g : F → F) (xs : List F) (P : List Pt) :
    multiscalar_mult (xs.map g) P
      = (List.zipWith (fun x p => g x • p) xs P).sum := by
  rw [multiscalar_mult, List.zipWith_map_left]

/-- The H-coefficient block of `verify` (`(b * s_inv) * h` zipped over the
factors) is `b •` an msm of the inverse coefficients against the rescaled
generators. -/
theorem multiscalar_mult_hblock (c : F) :
    ∀ (f sInv : List F) (Hv : List Pt), f.length = sInv.length →
      f.length = Hv.length →
      multiscalar_mult (List.zipWith (fun h si => (c * si) * h) f sInv) Hv
        = c • multiscalar_mult sInv
            (List.zipWith (fun hp fi => fi • hp) Hv f)
  | [], [], Hv, _, _ => by simp [multiscalar_mult]
  | fi :: f, si :: sInv, [], h1, h2 => by simp at h2
  | fi :: f, si :: sInv, hp :: Hv, h1, h2 => by
    rw [List.zipWith_cons_cons, List.zipWith_cons_cons,
      multiscalar_mult_cons, multiscalar_mult_cons,
      multiscalar_mult_hblock c f sInv Hv (by simpa using h1)
        (by simpa using h2), smul_add]
    congr 1
    match_scalars <;> ring

/-- The five concatenated coefficient/point blocks of the verifier's single
msm split into five msms when the first four blocks pair up exactly. -/
theorem multiscalar_mult_blocks5 (s1 s2 s3 s4 s5 : List F)
    (P1 P2 P3 P4 P5 : List Pt)
    (h1 : s1.length = P1.length) (h2 : s2.length = P2.length)
    (h3 : s3.length = P3.length) (h4 : s4.length = P4.length) :
    multiscalar_mult (s1 ++ s2 ++ s3 ++ s4 ++ s5)
        (P1 ++ P2 ++ P3 ++ P4 ++ P5)
      = multiscalar_mult s1 P1 + multiscalar_mult s2 P2
        + multiscalar_mult s3 P3 + multiscalar_mult s4 P4
        + multiscalar_mult s5 P5 := by
  rw [multiscalar_mult_append s5 P5
      (by simp [List.length_append, h1, h2, h3, h4]),
    multiscalar_mult_append s4 P4
      (by simp [List.length_append, h1, h2, h3]),
    multiscalar_mult_append s3 P3 (by simp [List.length_append, h1, h2]),
    multiscalar_mult_append s2 P2 h1]

/-- Four concatenated coefficient/point blocks split into four msms when
the first three blocks pair up exactly (the last pair may have any
lengths). -/
theorem multiscalar_mult_blocks4 (s1 s2 s3 s4 : List F)
    (P1 P2 P3 P4 : List Pt)
    (h1 : s1.length = P1.length) (h2 : s2.length = P2.length)
    (h3 : s3.length = P3.length) :
    multiscalar_mult (s1 ++ s2 ++ s3 ++ s4) (P1 ++ P2 ++ P3 ++ P4)
      = multiscalar_mult s1 P1 + multiscalar_mult s2 P2
        + multiscalar_mult s3 P3 + multiscalar_mult s4 P4 := by
  rw [multiscalar_mult_append s4 P4
      (by simp [List.length_append, h1, h2, h3]),
    multiscalar_mult_append s3 P3 (by simp [List.length_append, h1, h2]),
    multiscalar_mult_append s2 P2 h1]

/-- `verify` unfolded, given the outcome of the challenge replay and of the
`s` expansion: the result is the `expect_P == P` comparison on the code's
five concatenated coefficient blocks. -/
theorem verify_eq_of [DecidableEq Pt] (oracle : List (TEvent Pt) → F)
    (proof : Proof F Pt) (t t2 : List (TEvent Pt)) (f : List F) (P Q : Pt)
    (Gv Hv : List Pt) (xs s : List F)
    (hchal : verifyChallengesLoop oracle (proof.L_vec.zip proof.R_vec) t
      = (xs, t2))
    (hS : compute_s (xs.map (fun x => x * x)) proof.L_vec.length
        ((xs.map (fun x => x⁻¹)).prod) (2 ^ proof.L_vec.length) = some s) :
    verify oracle proof t f P Q Gv Hv
      = (if multiscalar_mult
            ([proof.a * proof.b] ++ s.map (fun s_i => proof.a * s_i)
              ++ List.zipWith (fun h_i s_i_inv => (proof.b * s_i_inv) * h_i)
                  f s.reverse
              ++ (xs.map (fun x => x * x)).map (fun y => -y)
              ++ (xs.map (fun x => x⁻¹)).map (fun y => -(y * y)))
            ([Q] ++ Gv ++ Hv ++ proof.L_vec ++ proof.R_vec) = P
         then some (Except.ok (), t2) else some (Except.error (), t2)) := by
  rw [verify, hchal]
  simp only [batch_invert]
  rw [hS]

theorem verifyChallengesLoop_length (oracle : List (TEvent Pt) → F) :
    ∀ (l : List (Pt × Pt)) (t : List (TEvent Pt)),
      (verifyChallengesLoop oracle l t).1.length = l.length
  | [], _ => rfl
  | LR :: rest, t => by
    simp only [verifyChallengesLoop, List.length_cons]
    rw [verifyChallengesLoop_length oracle rest]

theorem getD_reverse {α : Type} (l : List α) (d : α) (i : Nat)
    (hi : i < l.length) :
    l.reverse.getD i d = l.getD (l.length - 1 - i) d := by
  have h1 : i < l.reverse.length := by rw [List.length_reverse]; exact hi
  have h2 : l.length - 1 - i < l.length := by omega
  rw [List.getD_eq_getElem _ _ h1, List.getD_eq_getElem _ _ h2,
    List.getElem_reverse]

/-- `getD` through a `zipWith` of two lists, under index bounds. -/
theorem getD_zipWith {α β γ : Type} (f : α → β → γ) (l1 : List α)
    (l2 : List β) (d1 : α) (d2 : β) (d3 : γ) (i : Nat) (h1 : i < l1.length)
    (h2 : i < l2.length) :
    (List.zipWith f l1 l2).getD i d3 = f (l1.getD i d1) (l2.getD i d2) := by
  have hz : i < (List.zipWith f l1 l2).length := by
    rw [List.length_zipWith]
    omega
  rw [List.getD_eq_getElem _ _ hz, List.getD_eq_getElem _ _ h1,
    List.getD_eq_getElem _ _ h2, List.getElem_zipWith]

/-- An msm whose coefficient list is a map, as an indexed sum. -/
theorem msm_map_eq_sum (f : F → F) (s : List F) (P : List Pt) (n : Nat)
    (hs : s.length = n) (hP : P.length = n) :
    multiscalar_mult (s.map f) P
      = ∑ i ∈ Finset.range n, f (s.getD i 0) • P.getD i 0 := by
  rw [multiscalar_mult_eq_sum_range _ _ (by rw [List.length_map, hs, hP]),
    List.length_map, hs]
  refine Finset.sum_congr rfl (fun i hi => ?_)
  have hilt : i < s.length := by rw [hs]; exact Finset.mem_range.mp hi
  have himap : i < (s.map f).length := by rw [List.length_map]; exact hilt
  rw [List.getD_eq_getElem _ _ himap, List.getElem_map,
    ← List.getD_eq_getElem _ 0 hilt]

/-- The verifier's H-coefficient block as an indexed sum: the `i`-th
coefficient is `(b · s_{n-1-i}) · factor_i`. -/
theorem hblock_eq_sum (b : F) (factors s : List F) (Hv : List Pt) (n : Nat)
    (hf : factors.length = n) (hs : s.length = n) (hH : Hv.length = n) :
    multiscalar_mult
        (List.zipWith (fun h_i s_i_inv => (b * s_i_inv) * h_i)
          factors s.reverse) Hv
      = ∑ i ∈ Finset.range n,
          ((b * s.getD (n - 1 - i) 0) * factors.getD i 0) • Hv.getD i 0 := by
  have hzl : (List.zipWith (fun h_i s_i_inv => (b * s_i_inv) * h_i)
      factors s.reverse).length = n := by
    rw [List.length_zipWith, List.length_reverse, hf, hs]
    omega
  rw [multiscalar_mult_eq_sum_range _ _ (by rw [hzl, hH]), hzl]
  refine Finset.sum_congr rfl (fun i hi => ?_)
  have hilt : i < n := Finset.mem_range.mp hi
  rw [getD_zipWith _ factors s.reverse 0 0 0 i (by omega)
      (by rw [List.length_reverse]; omega),
    getD_reverse s 0 i (by omega), hs]

theorem collectSome_length {α : Type} :
    ∀ (l : List (Option α)) (xs : List α), collectSome l = some xs →
      xs.length = l.length
  | [], xs, h => by
    rw [collectSome] at h
    rw [← Option.some.inj h]
    rfl
  | o :: os, xs, h => by
    rw [collectSome] at h
    cases o with
    | none => exact absurd h (by simp)
    | some x =>
      rw [Option.some_bind] at h
      cases hrec : collectSome os with
      | none => rw [hrec] at h; exact absurd h (by simp)
      | some ys =>
        rw [hrec, Option.map_some'] at h
        rw [← Option.some.inj h, List.length_cons, List.length_cons,
          collectSome_length os ys hrec]

theorem compute_s_length (csq : List F) (lg : Nat) (allinv : F) (n : Nat)
    (s : List F) (h : compute_s csq lg allinv n = some s) : s.length = n := by
  rw [compute_s] at h
  rw [collectSome_length _ _ h, List.length_map, List.length_range]

theorem getD_take {α : Type} (l : List α) (d : α) (m i : Nat) (hi : i < m)
    (him : i < l.length) : (l.take m).getD i d = l.getD i d := by
  have h1 : i < (l.take m).length := by rw [List.length_take]; omega
  rw [List.getD_eq_getElem _ _ h1, List.getD_eq_getElem _ _ him,
    List.getElem_take]

theorem getD_drop {α : Type} (l : List α) (d : α) (m i : Nat)
    (h : m + i < l.length) : (l.drop m).getD i d = l.getD (m + i) d := by
  have h1 : i < (l.drop m).length := by rw [List.length_drop]; omega
  rw [List.getD_eq_getElem _ _ h1, List.getD_eq_getElem _ _ h,
    List.getElem_drop]

theorem map_neg_comp (xs : List F) :
    (xs.map (fun x => x * x)).map (fun y => -y)
      = xs.map (fun x => -(x * x)) := by
  rw [List.map_map]
  rfl

theorem map_neg_inv_comp (xs : List F) :
    (xs.map (fun x => x⁻¹)).map (fun y => -(y * y))
      = xs.map (fun x => -(x⁻¹ * x⁻¹)) := by
  rw [List.map_map]
  rfl

end VerifyLemmas

section ShapeLemmas

variable {F : Type} [Field F] {Pt : Type} [AddCommGroup Pt] [Module F Pt]

/-- Structure of a successful run on power-of-two input: `log2 n` rounds. -/
theorem createLoop_shape (oracle : List (TEvent Pt) → F) (Q : Pt) :
    ∀ (k fuel : Nat) (t : List (TEvent Pt)) (Gv Hv : List Pt) (a b : List F),
      k ≤ fuel → a.length = 2 ^ k → b.length = 2 ^ k →
      Gv.length = 2 ^ k → Hv.length = 2 ^ k →
      ∃ p t', createLoop oracle Q fuel (2 ^ k) t Gv Hv a b = some (p, t') ∧
        p.L_vec.length = k ∧ p.R_vec.length = k := by
  intro k
  induction k with
  | zero =>
    intro fuel t Gv Hv a b hfuel ha hb hG hH
    obtain ⟨a0, rfl⟩ : ∃ a0, a = [a0] :=
      List.length_eq_one.mp (by simpa using ha)
    obtain ⟨b0, rfl⟩ : ∃ b0, b = [b0] :=
      List.length_eq_one.mp (by simpa using hb)
    refine ⟨⟨[], [], a0, b0⟩, t, ?_, rfl, rfl⟩
    rw [pow_zero]
    exact createLoop_base oracle Q fuel t Gv Hv a0 b0 [] []
  | succ k ih =>
    intro fuel t Gv Hv a b hfuel ha hb hG hH
    obtain ⟨f, rfl⟩ : ∃ f, fuel = f + 1 := ⟨fuel - 1, by omega⟩
    have hn1 : (2 : Nat) ^ (k + 1) ≠ 1 := by
      have h1 : (1 : Nat) ≤ 2 ^ k := Nat.one_le_two_pow
      rw [pow_succ]
      omega
    have hhalf : 2 ^ (k + 1) / 2 = 2 ^ k := by
      rw [pow_succ]
      exact Nat.mul_div_cancel _ (by norm_num)
    have hlen2 : (2 : Nat) ^ (k + 1) = 2 ^ k + 2 ^ k := by rw [pow_succ]; omega
    obtain ⟨p, t', hloop, hL, hR⟩ :=
      ih f
        (challenge_scalar oracle
          (commit (commit t (round_L Q (2 ^ k) Gv Hv a b))
            (round_R Q (2 ^ k) Gv Hv a b))).2
        (fold_G (challenge_scalar oracle
          (commit (commit t (round_L Q (2 ^ k) Gv Hv a b))
            (round_R Q (2 ^ k) Gv Hv a b))).1 (2 ^ k) Gv)
        (fold_H (challenge_scalar oracle
          (commit (commit t (round_L Q (2 ^ k) Gv Hv a b))
            (round_R Q (2 ^ k) Gv Hv a b))).1 (2 ^ k) Hv)
        (fold_a (challenge_scalar oracle
          (commit (commit t (round_L Q (2 ^ k) Gv Hv a b))
            (round_R Q (2 ^ k) Gv Hv a b))).1 (2 ^ k) a)
        (fold_b (challenge_scalar oracle
          (commit (commit t (round_L Q (2 ^ k) Gv Hv a b))
            (round_R Q (2 ^ k) Gv Hv a b))).1 (2 ^ k) b)
        (by omega)
        (by rw [fold_a_length, ha]; omega)
        (by rw [fold_b_length, hb]; omega)
        (by rw [fold_G_length, hG]; omega)
        (by rw [fold_H_length, hH]; omega)
    refine ⟨⟨round_L Q (2 ^ k) Gv Hv a b :: p.L_vec,
      round_R Q (2 ^ k) Gv Hv a b :: p.R_vec, p.a, p.b⟩, t', ?_,
      by simpa using hL, by simpa using hR⟩
    rw [createLoop_succ oracle Q f (2 ^ (k + 1)) t Gv Hv a b hn1, hhalf,
      hloop, Option.map_some']

/-- Equal-length inputs of any positive length make the folding loop
terminate with a proof (given enough fuel). -/
theorem createLoop_isSome (oracle : List (TEvent Pt) → F) (Q : Pt) :
    ∀ (fuel n : Nat) (t : List (TEvent Pt)) (Gv Hv : List Pt)
      (a b : List F), 1 ≤ n → n ≤ fuel →
      a.length = n → b.length = n → Gv.length = n → Hv.length = n →
      (createLoop oracle Q fuel n t Gv Hv a b).isSome := by
  intro fuel
  induction fuel with
  | zero => intro n t Gv Hv a b h1 h2 _ _ _ _; omega
  | succ f ih =>
    intro n t Gv Hv a b h1 h2 ha hb hG hH
    by_cases hn : n = 1
    · subst hn
      obtain ⟨a0, rfl⟩ : ∃ a0, a = [a0] :=
        List.length_eq_one.mp (by simpa using ha)
      obtain ⟨b0, rfl⟩ : ∃ b0, b = [b0] :=
        List.length_eq_one.mp (by simpa using hb)
      rw [createLoop_base]
      rfl
    · rw [createLoop_succ oracle Q f n t Gv Hv a b hn, Option.isSome_map']
      exact ih (n / 2) _ _ _ _ _ (by omega) (by omega)
        (by rw [fold_a_length, ha]; omega)
        (by rw [fold_b_length, hb]; omega)
        (by rw [fold_G_length, hG]; omega)
        (by rw [fold_H_length, hH]; omega)

end ShapeLemmas

section Claims

variable {F : Type} [Field F] {Pt : Type} [AddCommGroup Pt] [Module F Pt]

/-- C1 (Completeness): for every power-of-two `n = 2^k`, scalar vectors
`a_vec`, `b_vec` of length `n`, generator vectors `G_vec`, `H_vec` of length
`n` and rescale factors of length `n`, if
`P = Σ aᵢ•Gᵢ + Σ (bᵢ·factorᵢ)•Hᵢ + <a,b>•Q`, then `Proof::create` on one
transcript followed by `Proof::verify` on an identically-initialized
transcript (no other absorbs on either) returns `Ok` — under the Fiat-Shamir
model in which every transcript challenge is a nonzero scalar. -/
theorem C1_completeness [DecidableEq Pt] (oracle : List (TEvent Pt) → F)
    (hor : ∀ l, oracle l ≠ 0) (k : Nat) (t : List (TEvent Pt)) (Q : Pt)
    (Hprime_factors : List F) (G_vec H_vec : List Pt) (a_vec b_vec : List F)
    (hf : Hprime_factors.length = 2 ^ k) (hG : G_vec.length = 2 ^ k)
    (hH : H_vec.length = 2 ^ k) (ha : a_vec.length = 2 ^ k)
    (hb : b_vec.length = 2 ^ k) :
    ∃ (p : Proof F Pt) (t' : List (TEvent Pt)),
      create oracle t Q Hprime_factors G_vec H_vec a_vec b_vec
        = some (p, t') ∧
      verify oracle p t Hprime_factors
        (multiscalar_mult a_vec G_vec
          + multiscalar_mult
              (List.zipWith (fun x y => x * y) b_vec Hprime_factors) H_vec
          + inner_product a_vec b_vec • Q) Q G_vec H_vec
        = some (Except.ok (), t') := by
  have hHr : (rescaleH H_vec Hprime_factors).length = 2 ^ k := by
    rw [rescaleH_length, hH]
  obtain ⟨p, t', xs, hloop, hLlen, hRlen, hreplay, hxslen, hxs0, heq⟩ :=
    createLoop_run oracle Q hor k (2 ^ k) t G_vec
      (rescaleH H_vec Hprime_factors) a_vec b_vec
      (Nat.le_of_lt (Nat.lt_two_pow k)) ha hb hG hHr
  refine ⟨p, t', ?_, ?_⟩
  · simp only [create]
    rw [hG, if_pos ⟨hH, ha, hb⟩]
    exact hloop
  · have hS : compute_s (xs.map (fun x => x * x)) p.L_vec.length
        ((xs.map (fun x => x⁻¹)).prod) (2 ^ p.L_vec.length)
        = some (sRec xs) :=
      compute_s_sRec xs p.L_vec.length (by rw [hLlen, hxslen])
    rw [verify_eq_of oracle p t t' Hprime_factors _ Q G_vec H_vec xs
      (sRec xs) hreplay hS]
    have hsRlen : (sRec xs).length = 2 ^ k := by rw [sRec_length, hxslen]
    have hcond : multiscalar_mult
        ([p.a * p.b] ++ (sRec xs).map (fun s_i => p.a * s_i)
          ++ List.zipWith (fun h_i s_i_inv => (p.b * s_i_inv) * h_i)
              Hprime_factors (sRec xs).reverse
          ++ (xs.map (fun x => x * x)).map (fun y => -y)
          ++ (xs.map (fun x => x⁻¹)).map (fun y => -(y * y)))
        ([Q] ++ G_vec ++ H_vec ++ p.L_vec ++ p.R_vec)
        = multiscalar_mult a_vec G_vec
          + multiscalar_mult
              (List.zipWith (fun x y => x * y) b_vec Hprime_factors) H_vec
          + inner_product a_vec b_vec • Q := by
      rw [multiscalar_mult_blocks5 _ _ _ _ _ _ _ _ _ _
          (by simp)
          (by rw [List.length_map, hsRlen, hG])
          (by simp [List.length_zipWith, List.length_reverse, hsRlen, hf, hH])
          (by rw [List.length_map, List.length_map, hxslen, hLlen]),
        multiscalar_mult_singleton, multiscalar_mult_map_mul,
        multiscalar_mult_hblock p.b Hprime_factors (sRec xs).reverse H_vec
          (by rw [List.length_reverse, hsRlen, hf]) (by rw [hf, hH]),
        ← rescaleH_eq_zipWith H_vec Hprime_factors (by rw [hH, hf]),
        multiscalar_mult_map_neg, multiscalar_mult_map]
      have hB4 : multiscalar_mult
          ((xs.map (fun x => x⁻¹)).map (fun y => -(y * y))) p.R_vec
          = -((List.zipWith (fun x r => (x⁻¹ * x⁻¹) • r) xs p.R_vec).sum) := by
        rw [List.map_map]
        have h1 : ((fun y : F => -(y * y)) ∘ fun x : F => x⁻¹)
            = ((fun c : F => -c) ∘ fun x : F => x⁻¹ * x⁻¹) := rfl
        rw [h1, ← List.map_map, multiscalar_mult_map_neg,
          multiscalar_mult_map]
      rw [hB4]
      have heq2 : p.a • multiscalar_mult (sRec xs) G_vec
          = multiscalar_mult a_vec G_vec
            + multiscalar_mult b_vec (rescaleH H_vec Hprime_factors)
            + inner_product a_vec b_vec • Q + sumLR xs p.L_vec p.R_vec
            - p.b • multiscalar_mult (sRec xs).reverse
                (rescaleH H_vec Hprime_factors)
            - (p.a * p.b) • Q := by
        rw [← heq]
        abel
      rw [heq2, sumLR,
        multiscalar_mult_rescaleH b_vec H_vec Hprime_factors
          (by rw [hH, hf])]
      abel
    rw [if_pos hcond]

/-- Witness for C1 at the concrete instance `n = 1` over `ZMod 101`. -/
theorem C1_completeness_witness :
    ∃ (p : Proof (ZMod 101) (ZMod 101)) (t' : List (TEvent (ZMod 101))),
      create (fun _ => (1 : ZMod 101)) [] (17 : ZMod 101)
        [(3 : ZMod 101)] [(5 : ZMod 101)] [(7 : ZMod 101)]
        [(2 : ZMod 101)] [(4 : ZMod 101)]
        = some (p, t') ∧
      verify (fun _ => (1 : ZMod 101)) p [] [(3 : ZMod 101)]
        (multiscalar_mult [(2 : ZMod 101)] [(5 : ZMod 101)]
          + multiscalar_mult
              (List.zipWith (fun x y => x * y) [(4 : ZMod 101)]
                [(3 : ZMod 101)]) [(7 : ZMod 101)]
          + inner_product [(2 : ZMod 101)] [(4 : ZMod 101)] • (17 : ZMod 101))
        17 [(5 : ZMod 101)] [(7 : ZMod 101)]
        = some (Except.ok (), t') :=
  C1_completeness (fun _ => (1 : ZMod 101)) (fun _ => one_ne_zero) 0 [] 17
    [3] [5] [7] [2] [4] (by decide) (by decide) (by decide) (by decide)
    (by decide)

/-- C3: the coefficient expansion of `Proof::verify` (lines 163–178): for
every `i` in `0..n` with `n = 2^lg_n`, the expansion succeeds and `s_i`
equals `allinv` times the product of the squared challenges over exactly the
set bit positions `j` of `i`, the challenge at bit position `j` being the
`(lg_n - 1 - j)`-th element of the squared-challenge sequence stored in
creation order (the last challenge produced maps to the lowest bit). -/
theorem C3_coefficient_expansion (challenges_sq : List F) (allinv : F)
    (lg_n : Nat) (hlen : challenges_sq.length = lg_n) :
    ∃ s, compute_s challenges_sq lg_n allinv (2 ^ lg_n) = some s ∧
      s.length = 2 ^ lg_n ∧
      ∀ i < 2 ^ lg_n, s.getD i 0
        = allinv * ∏ j ∈ Finset.range lg_n,
            if bit i j = 1 then challenges_sq.getD (lg_n - 1 - j) 1
            else 1 := by
  refine ⟨_, compute_s_eq challenges_sq lg_n allinv (2 ^ lg_n) (by omega),
    ?_, ?_⟩
  · rw [List.length_map, List.length_range]
  · intro i hi
    rw [getD_map_range _ _ hi]

/-- Witness for C3 at `lg_n = 2` over `ZMod 101`. -/
theorem C3_coefficient_expansion_witness :
    ∃ s, compute_s [(4 : ZMod 101), 9] 2 5 (2 ^ 2) = some s ∧
      s.length = 2 ^ 2 ∧
      ∀ i < 2 ^ 2, s.getD i 0
        = 5 * ∏ j ∈ Finset.range 2,
            if bit i j = 1 then [(4 : ZMod 101), 9].getD (2 - 1 - j) 1
            else 1 :=
  C3_coefficient_expansion [(4 : ZMod 101), 9] 5 2 (by decide)

/-- For nonzero challenges the folding coefficients satisfy the reflection
identity `s_i · s_{n-1-i} = 1`. -/
theorem sRec_mul_reflect (xs : List F) (hxs : ∀ x ∈ xs, x ≠ 0) (i : Nat)
    (hi : i < 2 ^ xs.length) :
    (sRec xs).getD i 0 * (sRec xs).getD (2 ^ xs.length - 1 - i) 0 = 1 := by
  have hone : (1 : Nat) ≤ 2 ^ xs.length := Nat.one_le_two_pow
  have hi' : 2 ^ xs.length - 1 - i < 2 ^ xs.length := by omega
  rw [sRec_getD xs i hi, sRec_getD xs _ hi']
  have hpoint : (∏ j ∈ Finset.range xs.length,
        if bit i j = 1
          then (xs.map (fun x => x * x)).getD (xs.length - 1 - j) 1 else 1)
      * (∏ j ∈ Finset.range xs.length,
        if bit (2 ^ xs.length - 1 - i) j = 1
          then (xs.map (fun x => x * x)).getD (xs.length - 1 - j) 1 else 1)
      = ∏ j ∈ Finset.range xs.length,
          (xs.map (fun x => x * x)).getD (xs.length - 1 - j) 1 := by
    rw [← Finset.prod_mul_distrib]
    refine Finset.prod_congr rfl (fun j hj => ?_)
    have hjlt : j < xs.length := Finset.mem_range.mp hj
    have hcomp : bit (2 ^ xs.length - 1 - i) j = 1 - bit i j :=
      bit_complement xs.length hi hjlt
    by_cases hb : bit i j = 1
    · rw [if_pos hb, hcomp, hb]
      rw [if_neg (by omega), mul_one]
    · have hb0 : bit i j = 0 := by
        have := bit_le_one i j
        omega
      rw [if_neg hb, hcomp, hb0, one_mul]
      rw [if_pos rfl]
  have hrefl : (∏ j ∈ Finset.range xs.length,
        (xs.map (fun x => x * x)).getD (xs.length - 1 - j) 1)
      = (xs.map (fun x => x * x)).prod := by
    rw [Finset.prod_range_reflect (fun j =>
        (xs.map (fun x => x * x)).getD j 1) xs.length]
    exact prod_getD_eq_prod _ _ (by rw [List.length_map])
  have hprod0 : xs.prod ≠ 0 :=
    List.prod_ne_zero (fun h0 => hxs 0 h0 rfl)
  calc ((xs.map (fun x => x⁻¹)).prod
        * ∏ j ∈ Finset.range xs.length,
            if bit i j = 1
              then (xs.map (fun x => x * x)).getD (xs.length - 1 - j) 1
              else 1)
      * ((xs.map (fun x => x⁻¹)).prod
        * ∏ j ∈ Finset.range xs.length,
            if bit (2 ^ xs.length - 1 - i) j = 1
              then (xs.map (fun x => x * x)).getD (xs.length - 1 - j) 1
              else 1)
      = (xs.map (fun x => x⁻¹)).prod * (xs.map (fun x => x⁻¹)).prod
        * ((∏ j ∈ Finset.range xs.length,
            if bit i j = 1
              then (xs.map (fun x => x * x)).getD (xs.length - 1 - j) 1
              else 1)
          * ∏ j ∈ Finset.range xs.length,
              if bit (2 ^ xs.length - 1 - i) j = 1
                then (xs.map (fun x => x * x)).getD (xs.length - 1 - j) 1
                else 1) := by ring
    _ = xs.prod⁻¹ * xs.prod⁻¹ * (xs.prod * xs.prod) := by
        rw [hpoint, hrefl, prod_map_inv, prod_map_sq]
    _ = 1 := by field_simp

/-- C7: for nonzero challenges, the expansion coefficients of
`Proof::verify` satisfy `s_i · s_{n-1-i} = 1` for every `i < n`, and the
reversed `s` sequence (line 183, the verifier's `inv_s`) literally yields
the inverses: `s.reverse[i] = (s[i])⁻¹`. -/
theorem C7_symmetry (xs : List F) (hxs : ∀ x ∈ xs, x ≠ 0) (lg_n : Nat)
    (hlg : lg_n = xs.length) (s : List F)
    (hS : compute_s (xs.map (fun x => x * x)) lg_n
        ((xs.map (fun x => x⁻¹)).prod) (2 ^ lg_n) = some s) :
    ∀ i < 2 ^ lg_n,
      s.getD i 0 * s.getD (2 ^ lg_n - 1 - i) 0 = 1 ∧
      s.reverse.getD i 0 = (s.getD i 0)⁻¹ := by
  rw [compute_s_sRec xs lg_n hlg] at hS
  have hs : s = sRec xs := (Option.some.inj hS).symm
  subst hs
  subst hlg
  intro i hi
  have hlen : (sRec xs).length = 2 ^ xs.length := sRec_length xs
  have hmain := sRec_mul_reflect xs hxs i hi
  refine ⟨hmain, ?_⟩
  rw [getD_reverse _ _ i (by rw [hlen]; exact hi), hlen]
  exact ((inv_eq_of_mul_eq_one_right hmain).symm)

/-- Witness for C7 at `xs = [2, 3]` over `ZMod 101`, instantiated at
`i = 1`. -/
theorem C7_symmetry_witness :
    (fun s : List (ZMod 101) =>
      s.getD 1 0 * s.getD (2 ^ 2 - 1 - 1) 0 = 1 ∧
      s.reverse.getD 1 0 = (s.getD 1 0)⁻¹)
      (sRec [(2 : ZMod 101), 3]) :=
  C7_symmetry [(2 : ZMod 101), 3] (by decide) 2 rfl
    (sRec [(2 : ZMod 101), 3]) (compute_s_sRec [(2 : ZMod 101), 3] 2 rfl)
    1 (by decide)

/-- C2: for a proof with matching `L_vec`/`R_vec` lengths and verifier
inputs of the derived size `n = 2^lg_n`, `Proof::verify` computes `expect_P`
as one multiscalar multiplication whose coefficients are `a·b` for `Q`,
`a·s_i` for each `G_i`, `b·s_{n-1-i}·Hprime_factors_i` for each `H_i`,
`-x_j²` for each `L_vec[j]` and `-x_j⁻²` for each `R_vec[j]`, and returns
`Ok` if and only if `expect_P` equals the supplied `P`; the only other
outcome is the uninformative `Err(())`. -/
theorem C2_verify_iff [DecidableEq Pt] (oracle : List (TEvent Pt) → F)
    (proof : Proof F Pt) (t : List (TEvent Pt)) (Hprime_factors : List F)
    (P Q : Pt) (G_vec H_vec : List Pt)
    (hR : proof.R_vec.length = proof.L_vec.length)
    (hG : G_vec.length = 2 ^ proof.L_vec.length)
    (hH : H_vec.length = 2 ^ proof.L_vec.length)
    (hf : Hprime_factors.length = 2 ^ proof.L_vec.length) :
    ∃ (xs s : List F) (t' : List (TEvent Pt)),
      verifyChallengesLoop oracle (proof.L_vec.zip proof.R_vec) t
        = (xs, t') ∧
      compute_s (xs.map (fun x => x * x)) proof.L_vec.length
        ((xs.map (fun x => x⁻¹)).prod) (2 ^ proof.L_vec.length) = some s ∧
      verify oracle proof t Hprime_factors P Q G_vec H_vec
        = some ((if expect_P_claim proof xs s Hprime_factors Q G_vec H_vec
              = P
            then Except.ok () else Except.error ()), t') := by
  have hxslen : (verifyChallengesLoop oracle
      (proof.L_vec.zip proof.R_vec) t).1.length = proof.L_vec.length := by
    rw [verifyChallengesLoop_length, List.length_zip, hR]
    omega
  obtain ⟨s, hS⟩ : ∃ s, compute_s
      ((verifyChallengesLoop oracle (proof.L_vec.zip proof.R_vec) t).1.map
        (fun x => x * x)) proof.L_vec.length
      (((verifyChallengesLoop oracle (proof.L_vec.zip proof.R_vec) t).1.map
        (fun x => x⁻¹)).prod) (2 ^ proof.L_vec.length) = some s :=
    ⟨_, compute_s_eq _ _ _ _ (by rw [List.length_map, hxslen])⟩
  have hslen := compute_s_length _ _ _ _ _ hS
  refine ⟨_, s, _, rfl, hS, ?_⟩
  rw [verify_eq_of oracle proof t _ Hprime_factors P Q G_vec H_vec _ s rfl
    hS]
  have hbig : multiscalar_mult
      ([proof.a * proof.b] ++ s.map (fun s_i => proof.a * s_i)
        ++ List.zipWith (fun h_i s_i_inv => (proof.b * s_i_inv) * h_i)
            Hprime_factors s.reverse
        ++ ((verifyChallengesLoop oracle (proof.L_vec.zip proof.R_vec)
            t).1.map (fun x => x * x)).map (fun y => -y)
        ++ ((verifyChallengesLoop oracle (proof.L_vec.zip proof.R_vec)
            t).1.map (fun x => x⁻¹)).map (fun y => -(y * y)))
      ([Q] ++ G_vec ++ H_vec ++ proof.L_vec ++ proof.R_vec)
      = expect_P_claim proof
          (verifyChallengesLoop oracle (proof.L_vec.zip proof.R_vec) t).1 s
          Hprime_factors Q G_vec H_vec := by
    rw [expect_P_claim]
    rw [multiscalar_mult_blocks5 _ _ _ _ _ _ _ _ _ _
        (by simp)
        (by rw [List.length_map, hslen, hG])
        (by rw [List.length_zipWith, List.length_reverse, hslen, hf, hH]
            omega)
        (by rw [List.length_map, List.length_map, hxslen]),
      multiscalar_mult_singleton,
      msm_map_eq_sum (fun s_i => proof.a * s_i) s G_vec _ hslen hG,
      hblock_eq_sum proof.b Hprime_factors s H_vec _ hf hslen hH,
      map_neg_comp, map_neg_inv_comp,
      msm_map_eq_sum (fun x => -(x * x)) _ proof.L_vec _ hxslen rfl,
      msm_map_eq_sum (fun x => -(x⁻¹ * x⁻¹)) _ proof.R_vec _ hxslen hR]
  rw [hbig]
  by_cases hc : expect_P_claim proof
      (verifyChallengesLoop oracle (proof.L_vec.zip proof.R_vec) t).1 s
      Hprime_factors Q G_vec H_vec = P
  · rw [if_pos hc, if_pos hc]
  · rw [if_neg hc, if_neg hc]

/-- Witness for C2 at a concrete zero-round proof over `ZMod 101`. -/
theorem C2_verify_iff_witness :
    ∃ (xs s : List (ZMod 101)) (t' : List (TEvent (ZMod 101))),
      verifyChallengesLoop (fun _ => (1 : ZMod 101))
          ((⟨[], [], 1, 2⟩ : Proof (ZMod 101) (ZMod 101)).L_vec.zip
            (⟨[], [], 1, 2⟩ : Proof (ZMod 101) (ZMod 101)).R_vec) []
        = (xs, t') ∧
      compute_s (xs.map (fun x => x * x)) 0
        ((xs.map (fun x => x⁻¹)).prod) (2 ^ 0) = some s ∧
      verify (fun _ => (1 : ZMod 101)) ⟨[], [], 1, 2⟩ [] [3] 9 4 [5] [6]
        = some ((if expect_P_claim (⟨[], [], 1, 2⟩ : Proof (ZMod 101)
              (ZMod 101)) xs s [3] 4 [5] [6] = 9
            then Except.ok () else Except.error ()), t') :=
  C2_verify_iff (fun _ => (1 : ZMod 101)) ⟨[], [], 1, 2⟩ [] [3] 9 4 [5] [6]
    (by decide) (by decide) (by decide) (by decide)

/-- C4 counterexample: a well-typed proof whose `R_vec` is shorter than its
`L_vec` makes `Proof::verify` panic (index out of bounds in the coefficient
expansion: `lg_n = |L_vec| = 1` but only `min(|L_vec|, |R_vec|) = 0`
challenges exist, so `challenges_sq[(lg_n-1)-0]` is out of bounds), instead
of returning the claimed `Err` outcome. -/
theorem C4_counterexample :
    verify (fun _ => (1 : ZMod 101))
        (⟨[3], [], 1, 1⟩ : Proof (ZMod 101) (ZMod 101)) [] [2, 2] 0 1
        [4, 5] [6, 7]
      = none := by decide

/-- C4 amended: `Proof::verify` never panics on a well-typed proof provided
`|L_vec| ≤ |R_vec|` (the zip then yields `|L_vec| = lg_n` challenges and
every coefficient-expansion index is in bounds); wrong lengths merely
produce a mismatched `expect_P` and the normal `Ok`/`Err` outcome.  A proof
with `|R_vec| < |L_vec|` instead panics, as the counterexample shows. -/
theorem C4_no_panic [DecidableEq Pt] (oracle : List (TEvent Pt) → F)
    (proof : Proof F Pt) (t : List (TEvent Pt)) (Hprime_factors : List F)
    (P Q : Pt) (G_vec H_vec : List Pt)
    (hLR : proof.L_vec.length ≤ proof.R_vec.length) :
    (verify oracle proof t Hprime_factors P Q G_vec H_vec).isSome := by
  have hxslen : (verifyChallengesLoop oracle
      (proof.L_vec.zip proof.R_vec) t).1.length = proof.L_vec.length := by
    rw [verifyChallengesLoop_length, List.length_zip]
    omega
  have hS := compute_s_eq
    ((verifyChallengesLoop oracle (proof.L_vec.zip proof.R_vec) t).1.map
      (fun x => x * x))
    proof.L_vec.length
    (((verifyChallengesLoop oracle (proof.L_vec.zip proof.R_vec) t).1.map
      (fun x => x⁻¹)).prod)
    (2 ^ proof.L_vec.length)
    (by rw [List.length_map, hxslen])
  rw [verify_eq_of oracle proof t
    (verifyChallengesLoop oracle (proof.L_vec.zip proof.R_vec) t).2
    Hprime_factors P Q G_vec H_vec
    (verifyChallengesLoop oracle (proof.L_vec.zip proof.R_vec) t).1 _
    rfl hS]
  split
  · rfl
  · rfl

/-- Witness for the amended C4 at a concrete well-typed proof. -/
theorem C4_no_panic_witness :
    (verify (fun _ => (1 : ZMod 101))
        (⟨[], [], 1, 1⟩ : Proof (ZMod 101) (ZMod 101)) [] [2] 0 1
        [4] [6]).isSome :=
  C4_no_panic (fun _ => (1 : ZMod 101)) ⟨[], [], 1, 1⟩ [] [2] 0 1 [4] [6]
    (by decide)

/-- C5: for every power-of-two input length `n = 2^k`, `Proof::create`
produces `L_vec` and `R_vec` each of length exactly `log2 n = k`; in
particular for `n = 1` it performs zero rounds (`L_vec`, `R_vec` empty) and
the proof's scalars equal `a_vec[0]` and `b_vec[0]` unchanged. -/
theorem C5_round_count (oracle : List (TEvent Pt) → F) (Q : Pt) (k : Nat)
    (t : List (TEvent Pt)) (Hprime_factors : List F)
    (G_vec H_vec : List Pt) (a_vec b_vec : List F)
    (ha : a_vec.length = 2 ^ k) (hb : b_vec.length = 2 ^ k)
    (hG : G_vec.length = 2 ^ k) (hH : H_vec.length = 2 ^ k) :
    ∃ p t', create oracle t Q Hprime_factors G_vec H_vec a_vec b_vec
        = some (p, t') ∧
      p.L_vec.length = k ∧ p.R_vec.length = k ∧
      (k = 0 → p.L_vec = [] ∧ p.R_vec = [] ∧
        p.a = a_vec.getD 0 0 ∧ p.b = b_vec.getD 0 0) := by
  obtain ⟨p, t', hloop, hL, hR⟩ :=
    createLoop_shape oracle Q k (2 ^ k) t G_vec
      (rescaleH H_vec Hprime_factors) a_vec b_vec
      (Nat.le_of_lt (Nat.lt_two_pow k)) ha hb hG
      (by rw [rescaleH_length, hH])
  have hcreate : create oracle t Q Hprime_factors G_vec H_vec a_vec b_vec
      = some (p, t') := by
    simp only [create]
    rw [hG, if_pos ⟨hH, ha, hb⟩]
    exact hloop
  refine ⟨p, t', hcreate, hL, hR, ?_⟩
  intro hk0
  subst hk0
  obtain ⟨a0, ha0⟩ : ∃ a0, a_vec = [a0] :=
    List.length_eq_one.mp (by simpa using ha)
  obtain ⟨b0, hb0⟩ : ∃ b0, b_vec = [b0] :=
    List.length_eq_one.mp (by simpa using hb)
  have hbase : create oracle t Q Hprime_factors G_vec H_vec a_vec b_vec
      = some (⟨[], [], a0, b0⟩, t) := by
    simp only [create]
    rw [hG, if_pos ⟨hH, ha, hb⟩, pow_zero, ha0, hb0]
    exact createLoop_base oracle Q _ t _ _ a0 b0 [] []
  rw [hcreate] at hbase
  have h2 : (p, t') = ((⟨[], [], a0, b0⟩ : Proof F Pt), t) :=
    Option.some.inj hbase
  have hp : p = ⟨[], [], a0, b0⟩ := congrArg Prod.fst h2
  simp [hp, ha0, hb0]

/-- Witness for C5 at `n = 1` over `ZMod 101`. -/
theorem C5_round_count_witness :
    ∃ (p : Proof (ZMod 101) (ZMod 101)) (t' : List (TEvent (ZMod 101))),
      create (fun _ => (1 : ZMod 101)) [] (17 : ZMod 101)
          [(3 : ZMod 101)] [(5 : ZMod 101)] [(7 : ZMod 101)]
          [(2 : ZMod 101)] [(4 : ZMod 101)] = some (p, t') ∧
      p.L_vec.length = 0 ∧ p.R_vec.length = 0 ∧
      (0 = 0 → p.L_vec = [] ∧ p.R_vec = [] ∧
        p.a = [(2 : ZMod 101)].getD 0 0 ∧ p.b = [(4 : ZMod 101)].getD 0 0) :=
  C5_round_count (fun _ => (1 : ZMod 101)) 17 0 [] [3] [5] [7] [2] [4]
    (by decide) (by decide) (by decide) (by decide)

/-- C8: `Proof::create` hits its length assertion (a fatal panic, not a
recoverable result) whenever `G_vec`, `H_vec`, `a_vec`, `b_vec` do not all
share one length, and does not fail on length grounds when they are all
equal and nonempty (`n = 0` makes the Rust `while n != 1` loop diverge — the
spec's implementation-defined "gross structural violation"). -/
theorem C8_assert_lengths (oracle : List (TEvent Pt) → F)
    (t : List (TEvent Pt)) (Q : Pt) (Hprime_factors : List F)
    (G_vec H_vec : List Pt) (a_vec b_vec : List F) :
    (¬(H_vec.length = G_vec.length ∧ a_vec.length = G_vec.length ∧
        b_vec.length = G_vec.length) →
      create oracle t Q Hprime_factors G_vec H_vec a_vec b_vec = none) ∧
    (H_vec.length = G_vec.length ∧ a_vec.length = G_vec.length ∧
        b_vec.length = G_vec.length →
      1 ≤ G_vec.length →
      (create oracle t Q Hprime_factors G_vec H_vec a_vec b_vec).isSome) := by
  constructor
  · intro h
    simp only [create]
    rw [if_neg h]
  · intro h h1
    simp only [create]
    rw [if_pos h]
    exact createLoop_isSome oracle Q G_vec.length G_vec.length t G_vec _
      a_vec b_vec h1 le_rfl h.2.1 h.2.2 rfl (by rw [rescaleH_length, h.1])

/-- Witness for C8: a length mismatch panics; equal lengths succeed. -/
theorem C8_assert_lengths_witness :
    create (fun _ => (1 : ZMod 101)) [] (17 : ZMod 101) [(3 : ZMod 101)]
        [(5 : ZMod 101)] [] [(2 : ZMod 101)] [(4 : ZMod 101)] = none ∧
    (create (fun _ => (1 : ZMod 101)) [] (17 : ZMod 101) [(3 : ZMod 101)]
        [(5 : ZMod 101)] [(7 : ZMod 101)] [(2 : ZMod 101)]
        [(4 : ZMod 101)]).isSome :=
  ⟨(C8_assert_lengths (fun _ => (1 : ZMod 101)) [] 17 [3] [5] [] [2] [4]).1
      (by decide),
   (C8_assert_lengths (fun _ => (1 : ZMod 101)) [] 17 [3] [5] [7] [2] [4]).2
      (by decide) (by decide)⟩

/-- C6: in every round of `Proof::create` (active length `n ≥ 2`), the
compressed encoding of `L` is absorbed into the transcript, then that of
`R`, then exactly one challenge scalar `x` is drawn (a function of the
transcript ending in the two commits), and the four vectors are folded
index-wise over the half-length as `a_L[i] ← a_L[i]·x + x⁻¹·a_R[i]`,
`b_L[i] ← b_L[i]·x⁻¹ + x·b_R[i]`, `G_L[i] ← x⁻¹·G_L[i] + x·G_R[i]`,
`H_L[i] ← x·H_L[i] + x⁻¹·H_R[i]`, the loop recursing on the folded
halves. -/
theorem C6_round_structure (oracle : List (TEvent Pt) → F) (Q : Pt)
    (fuel n : Nat) (t : List (TEvent Pt)) (G_vec H_vec : List Pt)
    (a_vec b_vec : List F) (h2 : 2 ≤ n)
    (ha : a_vec.length = n) (hb : b_vec.length = n)
    (hG : G_vec.length = n) (hH : H_vec.length = n) :
    ∃ x : F,
      x = oracle (t ++
          [TEvent.commitPoint (round_L Q (n / 2) G_vec H_vec a_vec b_vec),
           TEvent.commitPoint (round_R Q (n / 2) G_vec H_vec a_vec b_vec)])
        ∧
      createLoop oracle Q (fuel + 1) n t G_vec H_vec a_vec b_vec
        = (createLoop oracle Q fuel (n / 2)
            (t ++
              [TEvent.commitPoint
                (round_L Q (n / 2) G_vec H_vec a_vec b_vec),
               TEvent.commitPoint
                (round_R Q (n / 2) G_vec H_vec a_vec b_vec),
               TEvent.chal])
            (fold_G x (n / 2) G_vec) (fold_H x (n / 2) H_vec)
            (fold_a x (n / 2) a_vec) (fold_b x (n / 2) b_vec)).map
          (fun pt =>
            (⟨round_L Q (n / 2) G_vec H_vec a_vec b_vec :: pt.1.L_vec,
              round_R Q (n / 2) G_vec H_vec a_vec b_vec :: pt.1.R_vec,
              pt.1.a, pt.1.b⟩, pt.2)) ∧
      ∀ i < n / 2,
        (fold_a x (n / 2) a_vec).getD i 0
          = a_vec.getD i 0 * x + x⁻¹ * a_vec.getD (i + n / 2) 0 ∧
        (fold_b x (n / 2) b_vec).getD i 0
          = b_vec.getD i 0 * x⁻¹ + x * b_vec.getD (i + n / 2) 0 ∧
        (fold_G x (n / 2) G_vec).getD i 0
          = x⁻¹ • G_vec.getD i 0 + x • G_vec.getD (i + n / 2) 0 ∧
        (fold_H x (n / 2) H_vec).getD i 0
          = x • H_vec.getD i 0 + x⁻¹ • H_vec.getD (i + n / 2) 0 := by
  have hn : n ≠ 1 := by omega
  have htr1 : commit (commit t (round_L Q (n / 2) G_vec H_vec a_vec b_vec))
      (round_R Q (n / 2) G_vec H_vec a_vec b_vec)
      = t ++
        [TEvent.commitPoint (round_L Q (n / 2) G_vec H_vec a_vec b_vec),
         TEvent.commitPoint (round_R Q (n / 2) G_vec H_vec a_vec b_vec)] := by
    simp [commit, List.append_assoc]
  refine ⟨(challenge_scalar oracle
    (commit (commit t (round_L Q (n / 2) G_vec H_vec a_vec b_vec))
      (round_R Q (n / 2) G_vec H_vec a_vec b_vec))).1, ?_, ?_, ?_⟩
  · rw [challenge_scalar, htr1]
  · rw [createLoop_succ oracle Q fuel n t G_vec H_vec a_vec b_vec hn]
    have htr2 : (challenge_scalar oracle
        (commit (commit t (round_L Q (n / 2) G_vec H_vec a_vec b_vec))
          (round_R Q (n / 2) G_vec H_vec a_vec b_vec))).2
        = t ++
          [TEvent.commitPoint (round_L Q (n / 2) G_vec H_vec a_vec b_vec),
           TEvent.commitPoint (round_R Q (n / 2) G_vec H_vec a_vec b_vec),
           TEvent.chal] := by
      rw [challenge_scalar, htr1, List.append_assoc]
      rfl
    rw [htr2]
  · intro i hi
    have hm : n / 2 + i < n := by omega
    refine ⟨?_, ?_, ?_, ?_⟩
    · rw [fold_a, getD_zipWith _ _ _ 0 0 0 i
          (by rw [List.length_take]; omega)
          (by rw [List.length_drop]; omega),
        getD_take _ _ _ _ hi (by omega), getD_drop _ _ _ _ (by omega),
        Nat.add_comm]
    · rw [fold_b, getD_zipWith _ _ _ 0 0 0 i
          (by rw [List.length_take]; omega)
          (by rw [List.length_drop]; omega),
        getD_take _ _ _ _ hi (by omega), getD_drop _ _ _ _ (by omega),
        Nat.add_comm]
    · rw [fold_G, getD_zipWith _ _ _ 0 0 0 i
          (by rw [List.length_take]; omega)
          (by rw [List.length_drop]; omega),
        getD_take _ _ _ _ hi (by omega), getD_drop _ _ _ _ (by omega),
        Nat.add_comm]
    · rw [fold_H, getD_zipWith _ _ _ 0 0 0 i
          (by rw [List.length_take]; omega)
          (by rw [List.length_drop]; omega),
        getD_take _ _ _ _ hi (by omega), getD_drop _ _ _ _ (by omega),
        Nat.add_comm]

/-- Witness for C6 at a concrete `n = 2` round over `ZMod 101`. -/
theorem C6_round_structure_witness :
    ∃ x : ZMod 101,
      x = (fun _ => (1 : ZMod 101))
          (([] : List (TEvent (ZMod 101))) ++
            [TEvent.commitPoint (round_L (17 : ZMod 101) (2 / 2)
              [(5 : ZMod 101), 6] [(7 : ZMod 101), 8] [(1 : ZMod 101), 2]
              [(3 : ZMod 101), 4]),
             TEvent.commitPoint (round_R (17 : ZMod 101) (2 / 2)
              [(5 : ZMod 101), 6] [(7 : ZMod 101), 8] [(1 : ZMod 101), 2]
              [(3 : ZMod 101), 4])]) ∧
      createLoop (fun _ => (1 : ZMod 101)) (17 : ZMod 101) (0 + 1) 2 []
          [(5 : ZMod 101), 6] [(7 : ZMod 101), 8] [(1 : ZMod 101), 2]
          [(3 : ZMod 101), 4]
        = (createLoop (fun _ => (1 : ZMod 101)) (17 : ZMod 101) 0 (2 / 2)
            (([] : List (TEvent (ZMod 101))) ++
              [TEvent.commitPoint (round_L (17 : ZMod 101) (2 / 2)
                [(5 : ZMod 101), 6] [(7 : ZMod 101), 8] [(1 : ZMod 101), 2]
                [(3 : ZMod 101), 4]),
               TEvent.commitPoint (round_R (17 : ZMod 101) (2 / 2)
                [(5 : ZMod 101), 6] [(7 : ZMod 101), 8] [(1 : ZMod 101), 2]
                [(3 : ZMod 101), 4]),
               TEvent.chal])
            (fold_G x (2 / 2) [(5 : ZMod 101), 6])
            (fold_H x (2 / 2) [(7 : ZMod 101), 8])
            (fold_a x (2 / 2) [(1 : ZMod 101), 2])
            (fold_b x (2 / 2) [(3 : ZMod 101), 4])).map
          (fun pt =>
            (⟨round_L (17 : ZMod 101) (2 / 2) [(5 : ZMod 101), 6]
                [(7 : ZMod 101), 8] [(1 : ZMod 101), 2] [(3 : ZMod 101), 4]
                :: pt.1.L_vec,
              round_R (17 : ZMod 101) (2 / 2) [(5 : ZMod 101), 6]
                [(7 : ZMod 101), 8] [(1 : ZMod 101), 2] [(3 : ZMod 101), 4]
                :: pt.1.R_vec,
              pt.1.a, pt.1.b⟩, pt.2)) ∧
      ∀ i < 2 / 2,
        (fold_a x (2 / 2) [(1 : ZMod 101), 2]).getD i 0
          = [(1 : ZMod 101), 2].getD i 0 * x
            + x⁻¹ * [(1 : ZMod 101), 2].getD (i + 2 / 2) 0 ∧
        (fold_b x (2 / 2) [(3 : ZMod 101), 4]).getD i 0
          = [(3 : ZMod 101), 4].getD i 0 * x⁻¹
            + x * [(3 : ZMod 101), 4].getD (i + 2 / 2) 0 ∧
        (fold_G x (2 / 2) [(5 : ZMod 101), 6]).getD i 0
          = x⁻¹ • [(5 : ZMod 101), 6].getD i 0
            + x • [(5 : ZMod 101), 6].getD (i + 2 / 2) 0 ∧
        (fold_H x (2 / 2) [(7 : ZMod 101), 8]).getD i 0
          = x • [(7 : ZMod 101), 8].getD i 0
            + x⁻¹ • [(7 : ZMod 101), 8].getD (i + 2 / 2) 0 :=
  C6_round_structure (fun _ => (1 : ZMod 101)) (17 : ZMod 101) 0 2 []
    [(5 : ZMod 101), 6] [(7 : ZMod 101), 8] [(1 : ZMod 101), 2]
    [(3 : ZMod 101), 4] (by decide) (by decide) (by decide) (by decide)
    (by decide)

/-- C9 counterexample (to the verify half of the claim): with `m = 1`
rescale factor against `n = 2` generators, `Proof::verify` does not drop
the extra `H` generator from the multiscalar multiplication — the zip
truncates the coefficient list, so the `-x²`/`-x⁻²` coefficients slide
onto `H_1` and `L_0` instead of pairing with `L_0` and `R_0`.  On this
input the code rejects while the claim's dropped-`H` reading accepts. -/
theorem C9_counterexample :
    (verify (fun _ => (2 : Fin 5))
        (⟨[3], [0], 2, 4⟩ : Proof (Fin 5) (Fin 5)) [] [(4 : Fin 5)] 2 1
        [(2 : Fin 5), 3] [(1 : Fin 5), 4]).map Prod.fst
      = some (Except.error ()) ∧
    (verify_dropsH_claim (fun _ => (2 : Fin 5))
        (⟨[3], [0], 2, 4⟩ : Proof (Fin 5) (Fin 5)) [] [(4 : Fin 5)] 2 1
        [(2 : Fin 5), 3] [(1 : Fin 5), 4]).map Prod.fst
      = some (Except.ok ()) := by
  constructor <;> decide

/-- C9 amended: if `Hprime_factors` yields `m < n` scalars, `Proof::create`
rescales only `H_0..H_{m-1}`, silently uses `H_m..H_{n-1}` unrescaled and
raises no error; `Proof::verify` zips the `m` factors against the inverse
`s` coefficients, so its `H`-coefficient block pairs with `H_0..H_{m-1}`
only — but the later `-x²`/`-x⁻²` coefficients are *not* dropped from the
later `H` generators: they pair, shifted, with
`H_m..H_{n-1} ++ L_vec ++ R_vec` (misalignment, not omission). -/
theorem C9_factor_truncation [DecidableEq Pt]
    (oracle : List (TEvent Pt) → F) (t tv : List (TEvent Pt)) (Q P : Pt)
    (Hprime_factors : List F) (G_vec H_vec Gv2 Hv2 : List Pt)
    (a_vec b_vec : List F) (proof : Proof F Pt)
    (hH : H_vec.length = G_vec.length) (ha : a_vec.length = G_vec.length)
    (hb : b_vec.length = G_vec.length) (hn1 : 1 ≤ G_vec.length)
    (hmc : Hprime_factors.length < G_vec.length)
    (hR : proof.R_vec.length = proof.L_vec.length)
    (hG2 : Gv2.length = 2 ^ proof.L_vec.length)
    (hH2 : Hv2.length = 2 ^ proof.L_vec.length)
    (hm2 : Hprime_factors.length < 2 ^ proof.L_vec.length) :
    (∀ i, i < Hprime_factors.length → i < H_vec.length →
      (rescaleH H_vec Hprime_factors).getD i 0
        = Hprime_factors.getD i 0 • H_vec.getD i 0) ∧
    (∀ i, Hprime_factors.length ≤ i →
      (rescaleH H_vec Hprime_factors).getD i 0 = H_vec.getD i 0) ∧
    (create oracle t Q Hprime_factors G_vec H_vec a_vec b_vec).isSome ∧
    ∃ (xs s : List F) (t' : List (TEvent Pt)),
      verifyChallengesLoop oracle (proof.L_vec.zip proof.R_vec) tv
        = (xs, t') ∧
      compute_s (xs.map (fun x => x * x)) proof.L_vec.length
        ((xs.map (fun x => x⁻¹)).prod) (2 ^ proof.L_vec.length)
        = some s ∧
      verify oracle proof tv Hprime_factors P Q Gv2 Hv2
        = some ((if (proof.a * proof.b) • Q
              + proof.a • multiscalar_mult s Gv2
              + multiscalar_mult
                  (List.zipWith
                    (fun h_i s_i_inv => (proof.b * s_i_inv) * h_i)
                    Hprime_factors s.reverse)
                  (Hv2.take Hprime_factors.length)
              + multiscalar_mult
                  ((xs.map (fun x => x * x)).map (fun y => -y)
                    ++ (xs.map (fun x => x⁻¹)).map (fun y => -(y * y)))
                  (Hv2.drop Hprime_factors.length ++ proof.L_vec
                    ++ proof.R_vec)
            = P
            then Except.ok () else Except.error ()), t') := by
  refine ⟨fun i h1 h2 => rescaleH_getD_lt H_vec Hprime_factors i h1 h2,
    fun i h => rescaleH_getD_ge H_vec Hprime_factors i h, ?_, ?_⟩
  · rw [create]
    rw [if_pos ⟨hH, ha, hb⟩]
    exact createLoop_isSome oracle Q G_vec.length G_vec.length t G_vec
      (rescaleH H_vec Hprime_factors) a_vec b_vec hn1 le_rfl ha hb rfl
      (by rw [rescaleH_length]; exact hH)
  · have hxslen : (verifyChallengesLoop oracle
        (proof.L_vec.zip proof.R_vec) tv).1.length
        = proof.L_vec.length := by
      rw [verifyChallengesLoop_length, List.length_zip, hR]
      omega
    obtain ⟨s, hS⟩ : ∃ s, compute_s
        ((verifyChallengesLoop oracle (proof.L_vec.zip proof.R_vec)
          tv).1.map (fun x => x * x)) proof.L_vec.length
        (((verifyChallengesLoop oracle (proof.L_vec.zip proof.R_vec)
          tv).1.map (fun x => x⁻¹)).prod) (2 ^ proof.L_vec.length)
        = some s :=
      ⟨_, compute_s_eq _ _ _ _ (by rw [List.length_map, hxslen])⟩
    have hslen := compute_s_length _ _ _ _ _ hS
    refine ⟨_, s, _, rfl, hS, ?_⟩
    rw [verify_eq_of oracle proof tv _ Hprime_factors P Q Gv2 Hv2 _ s rfl
      hS]
    have hbig : ∀ xs : List F,
        multiscalar_mult
          ([proof.a * proof.b] ++ s.map (fun s_i => proof.a * s_i)
            ++ List.zipWith (fun h_i s_i_inv => (proof.b * s_i_inv) * h_i)
                Hprime_factors s.reverse
            ++ (xs.map (fun x => x * x)).map (fun y => -y)
            ++ (xs.map (fun x => x⁻¹)).map (fun y => -(y * y)))
          ([Q] ++ Gv2 ++ Hv2 ++ proof.L_vec ++ proof.R_vec)
        = (proof.a * proof.b) • Q + proof.a • multiscalar_mult s Gv2
          + multiscalar_mult
              (List.zipWith (fun h_i s_i_inv => (proof.b * s_i_inv) * h_i)
                Hprime_factors s.reverse)
              (Hv2.take Hprime_factors.length)
          + multiscalar_mult
              ((xs.map (fun x => x * x)).map (fun y => -y)
                ++ (xs.map (fun x => x⁻¹)).map (fun y => -(y * y)))
              (Hv2.drop Hprime_factors.length ++ proof.L_vec
                ++ proof.R_vec) := by
      intro xs
      have hCgrp : [proof.a * proof.b] ++ s.map (fun s_i => proof.a * s_i)
          ++ List.zipWith (fun h_i s_i_inv => (proof.b * s_i_inv) * h_i)
              Hprime_factors s.reverse
          ++ (xs.map (fun x => x * x)).map (fun y => -y)
          ++ (xs.map (fun x => x⁻¹)).map (fun y => -(y * y))
          = [proof.a * proof.b] ++ s.map (fun s_i => proof.a * s_i)
            ++ List.zipWith (fun h_i s_i_inv => (proof.b * s_i_inv) * h_i)
                Hprime_factors s.reverse
            ++ ((xs.map (fun x => x * x)).map (fun y => -y)
                ++ (xs.map (fun x => x⁻¹)).map (fun y => -(y * y))) := by
        simp only [List.append_assoc]
      have hPgrp : [Q] ++ Gv2 ++ Hv2 ++ proof.L_vec ++ proof.R_vec
          = [Q] ++ Gv2 ++ Hv2.take Hprime_factors.length
            ++ (Hv2.drop Hprime_factors.length ++ proof.L_vec
                ++ proof.R_vec) := by
        conv_lhs =>
          rw [← List.take_append_drop Hprime_factors.length Hv2]
        simp only [List.append_assoc]
      rw [hCgrp, hPgrp,
        multiscalar_mult_blocks4 _ _ _ _ _ _ _ _
          (by simp)
          (by rw [List.length_map, hslen, hG2])
          (by rw [List.length_zipWith, List.length_reverse, hslen,
              List.length_take, hH2]),
        multiscalar_mult_singleton, multiscalar_mult_map_mul]
    rw [hbig]
    by_cases hc : (proof.a * proof.b) • Q
        + proof.a • multiscalar_mult s Gv2
        + multiscalar_mult
            (List.zipWith (fun h_i s_i_inv => (proof.b * s_i_inv) * h_i)
              Hprime_factors s.reverse)
            (Hv2.take Hprime_factors.length)
        + multiscalar_mult
            (((verifyChallengesLoop oracle (proof.L_vec.zip proof.R_vec)
                tv).1.map (fun x => x * x)).map (fun y => -y)
              ++ ((verifyChallengesLoop oracle
                (proof.L_vec.zip proof.R_vec) tv).1.map
                  (fun x => x⁻¹)).map (fun y => -(y * y)))
            (Hv2.drop Hprime_factors.length ++ proof.L_vec
              ++ proof.R_vec)
        = P
    · rw [if_pos hc, if_pos hc]
    · rw [if_neg hc, if_neg hc]

/-- Witness for the amended C9 at `m = 0 < n = 1` on the create side and a
zero-round proof on the verify side, over `ZMod 101`. -/
theorem C9_factor_truncation_witness :
    (∀ i, i < ([] : List (ZMod 101)).length →
      i < [(7 : ZMod 101)].length →
      (rescaleH [(7 : ZMod 101)] ([] : List (ZMod 101))).getD i 0
        = ([] : List (ZMod 101)).getD i 0 • [(7 : ZMod 101)].getD i 0) ∧
    (∀ i, ([] : List (ZMod 101)).length ≤ i →
      (rescaleH [(7 : ZMod 101)] ([] : List (ZMod 101))).getD i 0
        = [(7 : ZMod 101)].getD i 0) ∧
    (create (fun _ => (1 : ZMod 101)) [] (3 : ZMod 101)
      ([] : List (ZMod 101)) [(5 : ZMod 101)] [(7 : ZMod 101)]
      [(2 : ZMod 101)] [(9 : ZMod 101)]).isSome ∧
    ∃ (xs s : List (ZMod 101)) (t' : List (TEvent (ZMod 101))),
      verifyChallengesLoop (fun _ => (1 : ZMod 101))
          (([] : List (ZMod 101)).zip ([] : List (ZMod 101))) []
        = (xs, t') ∧
      compute_s (xs.map (fun x => x * x)) 0
        ((xs.map (fun x => x⁻¹)).prod) (2 ^ 0) = some s ∧
      verify (fun _ => (1 : ZMod 101)) ⟨[], [], 1, 2⟩ []
          ([] : List (ZMod 101)) 8 3 [(4 : ZMod 101)] [(6 : ZMod 101)]
        = some ((if ((1 : ZMod 101) * 2) • (3 : ZMod 101)
              + (1 : ZMod 101) • multiscalar_mult s [(4 : ZMod 101)]
              + multiscalar_mult
                  (List.zipWith
                    (fun h_i s_i_inv => ((2 : ZMod 101) * s_i_inv) * h_i)
                    ([] : List (ZMod 101)) s.reverse)
                  ([(6 : ZMod 101)].take 0)
              + multiscalar_mult
                  ((xs.map (fun x => x * x)).map (fun y => -y)
                    ++ (xs.map (fun x => x⁻¹)).map (fun y => -(y * y)))
                  ([(6 : ZMod 101)].drop 0 ++ ([] : List (ZMod 101))
                    ++ ([] : List (ZMod 101)))
            = 8
            then Except.ok () else Except.error ()), t') :=
  C9_factor_truncation (fun _ => (1 : ZMod 101)) [] [] (3 : ZMod 101)
    (8 : ZMod 101) ([] : List (ZMod 101)) [(5 : ZMod 101)]
    [(7 : ZMod 101)] [(4 : ZMod 101)] [(6 : ZMod 101)] [(2 : ZMod 101)]
    [(9 : ZMod 101)] ⟨[], [], 1, 2⟩ (by decide) (by decide) (by decide)
    (by decide) (by decide) (by decide) (by decide) (by decide) (by decide)

/-- C10: `Proof::create` is deterministic — its signature draws no
randomness, so two runs with equal `Q`, `Hprime_factors`, `G_vec`, `H_vec`,
`a_vec`, `b_vec` and equal initial transcript states produce identical
proofs (equal `L_vec`, `R_vec`, `a`, `b`) and leave the two transcripts in
identical states. -/
theorem C10_deterministic (oracle : List (TEvent Pt) → F) (Q : Pt)
    (Hprime_factors : List F) (G_vec H_vec : List Pt)
    (a_vec b_vec : List F) (t1 t2 : List (TEvent Pt)) (h : t1 = t2)
    (p1 p2 : Proof F Pt) (t1' t2' : List (TEvent Pt))
    (h1 : create oracle t1 Q Hprime_factors G_vec H_vec a_vec b_vec
      = some (p1, t1'))
    (h2 : create oracle t2 Q Hprime_factors G_vec H_vec a_vec b_vec
      = some (p2, t2')) :
    p1.L_vec = p2.L_vec ∧ p1.R_vec = p2.R_vec ∧ p1.a = p2.a ∧
      p1.b = p2.b ∧ t1' = t2' := by
  subst h
  rw [h1] at h2
  have h3 : (p1, t1') = (p2, t2') := Option.some.inj h2
  have hp : p1 = p2 := congrArg Prod.fst h3
  have ht : t1' = t2' := congrArg Prod.snd h3
  simp [hp, ht]

/-- Witness for C10 at a concrete `n = 1` run. -/
theorem C10_deterministic_witness :
    ((⟨[], [], 2, 4⟩ : Proof (ZMod 101) (ZMod 101)).L_vec
        = (⟨[], [], 2, 4⟩ : Proof (ZMod 101) (ZMod 101)).L_vec) ∧
      ([] : List (TEvent (ZMod 101))) = [] := by
  have h := C10_deterministic (fun _ => (1 : ZMod 101)) (17 : ZMod 101)
    [(3 : ZMod 101)] [(5 : ZMod 101)] [(7 : ZMod 101)] [(2 : ZMod 101)]
    [(4 : ZMod 101)] [] [] rfl
    ⟨[], [], 2, 4⟩ ⟨[], [], 2, 4⟩ [] [] (by decide) (by decide)
  exact ⟨h.1, h.2.2.2.2⟩

end Claims

end IPP
